import Mathlib

/-!
# Verification of the OpenEvolve TypeScript evolution engine

A shallow embedding, in Lean 4, of the parts of the OpenEvolve desktop
evolution engine that the specification's testable properties talk about:

* the diff utilities (`parseDiff` / `applyDiffs` in `engine/utils.ts`),
* the MAP-Elites program database (`engine/database.ts`),
* the adaptive sampling policy of Collaborative Evolution
  (`engine/pacevolve/collaborative.ts`),
* the per-island momentum tracker of Momentum-Based Backtracking
  (the per-island `MomentumTracker`),
* the evaluator retry loop (`Evaluator.evaluateProgram`),
* the template manager (`TemplateManager`),
* the controller's run loop (`EvolutionEngine.run`).

JavaScript numbers are modelled as exact rationals (`ℚ`); the sentinel
`-Infinity` is modelled as `Option ℚ` with `none` standing for `-Infinity`.
JS `Map`s and `Set`s are modelled as insertion-ordered association lists and
duplicate-free lists, matching JS iteration order.
-/

namespace OpenEvolve

/-! ## Association-list maps and insertion-ordered sets

JS `Map` keeps insertion order; `set` on an existing key updates in place,
`set` on a new key appends.  JS `Set.add` appends when absent, `delete`
removes the (unique) element. -/

/-- Lookup in an association list (first binding wins, as in a JS `Map`
whose keys are unique). -/
def alGet {α β : Type} [DecidableEq α] : List (α × β) → α → Option β
  | [], _ => none
  | (k, v) :: t, k' => if k = k' then some v else alGet t k'

/-- `Map.set`: update the existing binding in place, or append a new one. -/
def alSet {α β : Type} [DecidableEq α] : List (α × β) → α → β → List (α × β)
  | [], k, v => [(k, v)]
  | (k', v') :: t, k, v =>
    if k' = k then (k, v) :: t else (k', v') :: alSet t k v

/-- `Map.delete`. -/
def alDel {α β : Type} [DecidableEq α] (l : List (α × β)) (k : α) :
    List (α × β) :=
  l.filter (fun kv => kv.1 ≠ k)

/-- `Set.add`: append if not already present. -/
def setAdd {α : Type} [DecidableEq α] (l : List α) (a : α) : List α :=
  if a ∈ l then l else l ++ [a]

/-- `Set.delete`: remove every copy (the list is kept duplicate free, so at
most one copy exists). -/
def setDel {α : Type} [DecidableEq α] (l : List α) (a : α) : List α :=
  l.filter (fun x => x ≠ a)

/-- `Set.has` / `Map.has`. -/
def alHas {α β : Type} [DecidableEq α] (l : List (α × β)) (k : α) : Bool :=
  (alGet l k).isSome

/-! ## Utilities (`engine/utils.ts`) -/

/-- `calculateEditDistance`: Levenshtein distance.  The source computes it
with the classical full dynamic-programming table; this recursion satisfies
the same recurrence (`dp[i][j] = dp[i-1][j-1]` on equal heads, else
`1 + min` of the three neighbours) and therefore the same value. -/
def calculateEditDistance : List Char → List Char → ℕ
  | [], s2 => s2.length
  | s1, [] => s1.length
  | c1 :: t1, c2 :: t2 =>
    if c1 = c2 then calculateEditDistance t1 t2
    else 1 + min (calculateEditDistance t1 (c2 :: t2))
      (min (calculateEditDistance (c1 :: t1) t2)
        (calculateEditDistance t1 t2))

/-- Metric dictionaries (`Record<string, number>`), modelled as association
lists from metric name to rational value. -/
abbrev Metrics := List (String × ℚ)

/-- `safeNumericAverage`: arithmetic mean of the metric values, or `0` when
there are none.  (All modelled values are finite rationals, so the source's
NaN/Infinity filter keeps everything.) -/
def safeNumericAverage (metrics : Metrics) : ℚ :=
  let vs := metrics.map Prod.snd
  if vs.length = 0 then 0 else vs.sum / vs.length

/-- `getFitnessScore`: `combined_score` when present, otherwise the mean of
the metrics whose names are not feature dimensions. -/
def getFitnessScore (metrics : Metrics) (featureDimensions : List String) : ℚ :=
  match alGet metrics "combined_score" with
  | some v => v
  | none =>
    safeNumericAverage
      (metrics.filter (fun kv => ¬ kv.1 ∈ featureDimensions))

/-! ### Diff application (`applyDiffs` in `engine/utils.ts`)

`applyDiffs` folds `result = result.replace(diff.search, diff.replace)` over
the parsed search/replace pairs.  `String.prototype.replace` with a string
pattern replaces the first occurrence of the pattern, after expanding the
JavaScript `GetSubstitution` dollar escapes of the replacement text: `$$`
is a literal dollar, `$&` the matched substring, a dollar followed by a
backquote the portion before the match, `$'` the portion after the match;
with a string pattern there are no capture groups or named captures, so
every other dollar sequence (including `$1`…`$99` and `$<`) is kept
literally. -/

/-- Index of the first occurrence of `pat` in `s` (JS `indexOf`; the empty
pattern matches at index 0). -/
def firstOcc : List Char → List Char → Option ℕ
  | s, pat =>
    if pat.isPrefixOf s then some 0
    else
      match s with
      | [] => none
      | _ :: t => (firstOcc t pat).map (· + 1)

/-- JS `GetSubstitution` restricted to a string pattern: expand the dollar
escapes of the replacement text.  `matched` is the matched substring (the
pattern itself), `pre` the portion of the subject before the match, `post`
the portion after it.  Escapes: a doubled dollar yields one dollar, a
dollar-ampersand yields `matched`, a dollar-backquote yields `pre`, a
dollar-apostrophe yields `post`; any other dollar sequence has no
substitution (a string pattern has no capture groups) and is kept
literally, the scan resuming at the character after the dollar (that
character is emitted as is: it is not itself a dollar in that branch). -/
def dollarExpand (matched pre post : List Char) : List Char → List Char
  | [] => []
  | c :: t =>
    if c = '$' then
      match t with
      | [] => ['$']
      | d :: t2 =>
        if d = '$' then '$' :: dollarExpand matched pre post t2
        else if d = '&' then matched ++ dollarExpand matched pre post t2
        else if d = Char.ofNat 96 then pre ++ dollarExpand matched pre post t2
        else if d = Char.ofNat 39 then post ++ dollarExpand matched pre post t2
        else '$' :: d :: dollarExpand matched pre post t2
    else c :: dollarExpand matched pre post t

/-- One `result.replace(search, replace)` step: replace the first occurrence
of `pat` by the dollar-expanded replacement, or return `s` unchanged when
`pat` does not occur. -/
def replaceFirst (s pat rep : List Char) : List Char :=
  match firstOcc s pat with
  | none => s
  | some i =>
    s.take i ++
      dollarExpand pat (s.take i) (s.drop (i + pat.length)) rep ++
      s.drop (i + pat.length)

/-- `applyDiffs`: apply each search/replace pair in order. -/
def applyDiffs (originalCode : List Char)
    (diffs : List (List Char × List Char)) : List Char :=
  diffs.foldl (fun result d => replaceFirst result d.1 d.2) originalCode

/-- Number of (possibly overlapping) occurrences of `pat` in `s`, used to
state "the search string occurs exactly once". -/
def occCount : List Char → List Char → ℕ
  | s, pat =>
    match s with
    | [] => if pat.isPrefixOf ([] : List Char) then 1 else 0
    | _ :: t => (if pat.isPrefixOf s then 1 else 0) + occCount t pat

/-! ## Feature binning (`ProgramDatabase.valueTobin`) -/

/-- Running statistics for one feature dimension
(`{ min; max; values }` entries of `featureStats`). -/
structure FeatureStat where
  min : ℚ
  max : ℚ
  values : List ℚ
  deriving Repr, DecidableEq

/-- `valueTobin`: convert a raw feature value to a bin index, updating the
running statistics.  Mirrors the source: a missing entry initializes the
stats and yields bin 0; a zero range yields bin 0; otherwise
`Math.min(Math.floor((value-min)/range*bins), bins-1)`. -/
def valueTobin (stats : Option FeatureStat) (value : ℚ) (bins : ℕ) :
    ℤ × FeatureStat :=
  match stats with
  | none => (0, ⟨value, value, [value]⟩)
  | some st =>
    let st' : FeatureStat :=
      ⟨min st.min value, max st.max value, st.values ++ [value]⟩
    let range := st'.max - st'.min
    if range = 0 then (0, st')
    else
      let binIdx : ℤ := ⌊(value - st'.min) / range * bins⌋
      (min binIdx ((bins : ℤ) - 1), st')

/-! ## Programs (`Program` in `engine/types.ts`)

Only the fields read by the embedded components are modelled.  Of the
open-ended `metadata` record, only `metadata.island` is read by the
database; it is modelled as the `island` field.  JS stores the `metadata`
record by reference and mutates it in place (`program.metadata.island =
islandIdx` in `ProgramDatabase.add`), and `migratePrograms` clones a
migrant with the shallow copy `{ ...migrant, id: uuidv4() }`, which keeps
pointing at the *same* `metadata` object.  The embedding captures the
identity of the metadata object as the `metaId` field: a shallow clone
keeps the original's `metaId`, and a mutation of `metadata.island` is a
simultaneous update of the `island` field of every stored program carrying
that `metaId` (see `islandInsert`). -/

/-- A program record. -/
structure Program where
  id : String
  code : List Char
  parentId : Option String
  generation : ℕ
  iterationFound : ℕ
  metrics : Metrics
  complexity : ℚ
  island : Option ℕ
  metaId : ℕ
  deriving Repr, DecidableEq

/-- JS `v || d` on a possibly-undefined number: both `undefined`/`null` and
`0` are falsy. -/
def jsOrQ (v : Option ℚ) (d : ℚ) : ℚ :=
  match v with
  | some x => if x = 0 then d else x
  | none => d

/-- `program.metrics.combined_score || 0`. -/
def combinedScoreOrZero (m : Metrics) : ℚ :=
  jsOrQ (alGet m "combined_score") 0

/-! ## PACEvolve configuration (`PACEvolveConfig` in `engine/config.ts`) -/

/-- The `pacevolve` configuration fields consumed by the embedded
components. -/
structure PACEvolveConfig where
  enableMBB : Bool
  momentumWindowSize : ℕ
  stagnationThreshold : ℚ
  backtrackDepth : ℕ
  momentumBeta : ℚ
  enableCE : Bool
  initialExploreProb : ℚ
  initialExploitProb : ℚ
  initialBacktrackProb : ℚ
  adaptationRate : ℚ
  deriving Repr, DecidableEq

/-- The `pacevolve` block of `DEFAULT_CONFIG` in `engine/config.ts`. -/
def defaultPacevolveConfig : PACEvolveConfig where
  enableMBB := true
  momentumWindowSize := 10
  stagnationThreshold := 1/1000
  backtrackDepth := 5
  momentumBeta := 9/10
  enableCE := true
  initialExploreProb := 3/10
  initialExploitProb := 1/2
  initialBacktrackProb := 1/5
  adaptationRate := 1/10

/-! ## Adaptive sampling policy
(`AdaptiveSamplingPolicy` in `engine/pacevolve/collaborative.ts`) -/

/-- The three action probabilities of `AdaptiveSamplingPolicy`. -/
structure Policy where
  exploreProb : ℚ
  exploitProb : ℚ
  backtrackProb : ℚ
  deriving Repr, DecidableEq

/-- The post-floor total `this.exploreProb + this.exploitProb +
this.backtrackProb` computed inside `AdaptiveSamplingPolicy.normalize`. -/
def Policy.flooredTotal (p : Policy) : ℚ :=
  max (1/20) p.exploreProb + max (1/20) p.exploitProb +
    max (1/20) p.backtrackProb

/-- `AdaptiveSamplingPolicy.normalize`: floor each probability at `0.05`,
then divide by the (post-floor) total. -/
def Policy.normalize (p : Policy) : Policy :=
  ⟨max (1/20) p.exploreProb / p.flooredTotal,
    max (1/20) p.exploitProb / p.flooredTotal,
    max (1/20) p.backtrackProb / p.flooredTotal⟩

/-- The `AdaptiveSamplingPolicy` constructor: take the three initial
probabilities from the config and normalize. -/
def policyInit (cfg : PACEvolveConfig) : Policy :=
  Policy.normalize
    ⟨cfg.initialExploreProb, cfg.initialExploitProb, cfg.initialBacktrackProb⟩

/-- The `lagging` test inside the stagnation branch of
`AdaptiveSamplingPolicy.update`: both optional arguments are defined and
`peerBest - absoluteProgress > 0.05`; otherwise `false`. -/
def laggingFlag (absoluteProgress peerBest : Option ℚ) : Bool :=
  match absoluteProgress, peerBest with
  | some ap, some pb => if pb - ap > 1/20 then true else false
  | _, _ => false

/-- The three `if/else if` probability adjustments of
`AdaptiveSamplingPolicy.update`, before the final `normalize`. -/
def policyAdjust (cfg : PACEvolveConfig) (p : Policy) (momentum : ℚ)
    (absoluteProgress peerBest : Option ℚ) : Policy :=
  if momentum > 1/100 then
    ⟨p.exploreProb - cfg.adaptationRate * (1/2),
      p.exploitProb + cfg.adaptationRate,
      p.backtrackProb - cfg.adaptationRate * (1/2)⟩
  else if |momentum| < 1/1000 then
    ⟨p.exploreProb + cfg.adaptationRate *
        (if laggingFlag absoluteProgress peerBest then 3/5 else 1),
      p.exploitProb - cfg.adaptationRate * (7/10),
      p.backtrackProb + cfg.adaptationRate *
        (if laggingFlag absoluteProgress peerBest then 7/10 else 3/10)⟩
  else if momentum < -(1/100) then
    ⟨p.exploreProb - cfg.adaptationRate * (3/10),
      p.exploitProb - cfg.adaptationRate * (7/10),
      p.backtrackProb + cfg.adaptationRate⟩
  else p

/-- `AdaptiveSamplingPolicy.update(progress, absoluteProgress?, peerBest?)`.
Only `progress.momentum` is read from the progress metrics.  `undefined`
optional arguments are modelled as `none`. -/
def policyUpdate (cfg : PACEvolveConfig) (p : Policy) (momentum : ℚ)
    (absoluteProgress peerBest : Option ℚ) : Policy :=
  (policyAdjust cfg p momentum absoluteProgress peerBest).normalize

/-- A policy state reached by constructing `AdaptiveSamplingPolicy` from
`cfg` and performing the given sequence of `update` calls (each entry is
`(progress.momentum, absoluteProgress?, peerBest?)`). -/
def policyRun (cfg : PACEvolveConfig)
    (updates : List (ℚ × Option ℚ × Option ℚ)) : Policy :=
  updates.foldl (fun p u => policyUpdate cfg p u.1 u.2.1 u.2.2)
    (policyInit cfg)

/-! ## Momentum-Based Backtracking
(the per-island `MomentumTracker`, `MomentumTracker.update`)

The tracker keeps one such state per island in `this.states`; `update`
operates on the state of the given island, so the embedding works directly
on a single island's state.  `currentBestScore` starts at `-Infinity`,
modelled as `none`; `initialScore` starts at `null`, also `none`. -/

/-- The per-island entry of `MomentumTracker.states`. -/
structure MBBIslandState where
  recentRelativeImprovements : List ℚ
  momentum : ℚ
  backtrackHistory : List (ℕ × Program)
  iterationsSinceImprovement : ℕ
  currentBestScore : Option ℚ
  initialScore : Option ℚ
  deriving Repr, DecidableEq

/-- The fresh per-island state created by `getState`. -/
def mbbInitState : MBBIslandState := ⟨[], 0, [], 0, none, none⟩

/-- JS `array.push(a)` followed by `if (array.length > cap) array.shift()`. -/
def pushTrim {α : Type} (l : List α) (a : α) (cap : ℕ) : List α :=
  if (l ++ [a]).length > cap then (l ++ [a]).drop 1 else l ++ [a]

/-- `MomentumTracker.relativeGap(previousBest, targetScore?)`. -/
def relativeGap (previousBest : ℚ) (targetScore : Option ℚ) : ℚ :=
  match targetScore with
  | some t => max |t - previousBest| (1/1000000)
  | none => max |previousBest| (1/1000000)

/-- `if (state.initialScore === null) state.initialScore = score` (a strict
null check, not a falsiness check). -/
def mbbInitScore (s : MBBIslandState) (score : ℚ) : MBBIslandState :=
  { s with initialScore :=
      match s.initialScore with
      | none => some score
      | some v => some v }

/-- The branch condition `score > state.currentBestScore`, where
`currentBestScore` starts at `-Infinity`. -/
def mbbImproves (s : MBBIslandState) (score : ℚ) : Bool :=
  match s.currentBestScore with
  | none => true
  | some cb => if score > cb then true else false

/-- `previousBest`: `currentBestScore`, or `initialScore || score` when
`currentBestScore` is still `-Infinity`. -/
def mbbPreviousBest (s : MBBIslandState) (score : ℚ) : ℚ :=
  match s.currentBestScore with
  | none => jsOrQ s.initialScore score
  | some cb => cb

/-- The improvement/stagnation section of `MomentumTracker.update`: returns
the updated state together with the `relativeImprovement` computed there. -/
def mbbScorePhase (cfg : PACEvolveConfig) (s : MBBIslandState) (score : ℚ)
    (iteration : ℕ) (program : Program) (targetScore : Option ℚ) :
    MBBIslandState × ℚ :=
  if mbbImproves s score = true then
    ({ s with
        currentBestScore := some score,
        iterationsSinceImprovement := 0,
        backtrackHistory :=
          pushTrim s.backtrackHistory (iteration, program)
            cfg.backtrackDepth },
      (score - mbbPreviousBest s score) /
        relativeGap (mbbPreviousBest s score) targetScore)
  else
    ({ s with
        iterationsSinceImprovement := s.iterationsSinceImprovement + 1 }, 0)

/-- The window/momentum section of `MomentumTracker.update`: push the
relative improvement, trim the window to `momentumWindowSize`, and update
the EWMA with `latest = window.at(-1) || 0`. -/
def mbbMomentumPhase (cfg : PACEvolveConfig) (s : MBBIslandState)
    (relImp : ℚ) : MBBIslandState :=
  { s with
      recentRelativeImprovements :=
        pushTrim s.recentRelativeImprovements relImp cfg.momentumWindowSize,
      momentum := cfg.momentumBeta * s.momentum +
        (1 - cfg.momentumBeta) *
          jsOrQ (pushTrim s.recentRelativeImprovements relImp
            cfg.momentumWindowSize).getLast? 0 }

/-- `MomentumTracker.update(program, iteration, islandId, targetScore?)`,
acting on the state of island `islandId`. -/
def mbbUpdate (cfg : PACEvolveConfig) (s : MBBIslandState)
    (program : Program) (iteration : ℕ) (targetScore : Option ℚ) :
    MBBIslandState :=
  if cfg.enableMBB = true then
    mbbMomentumPhase cfg
      (mbbScorePhase cfg
        (mbbInitScore s (combinedScoreOrZero program.metrics))
        (combinedScoreOrZero program.metrics) iteration program
        targetScore).1
      (mbbScorePhase cfg
        (mbbInitScore s (combinedScoreOrZero program.metrics))
        (combinedScoreOrZero program.metrics) iteration program
        targetScore).2
  else s

/-! ## Program database (`ProgramDatabase` in `engine/database.ts`)

The database configuration fields consumed by the embedding.
`featureBinsPerDim` is the per-dimension bin map the constructor derives
from `featureBins`. -/

structure DatabaseConfig where
  populationSize : ℕ
  archiveSize : ℕ
  numIslands : ℕ
  explorationRatio : ℚ
  exploitationRatio : ℚ
  featureDimensions : List String
  featureBinsPerDim : List (String × ℕ)
  migrationInterval : ℕ
  migrationRate : ℚ
  deriving Repr, DecidableEq

/-- The mutable state of a `ProgramDatabase`.  MAP-Elites cell keys are the
feature-coordinate lists themselves (`featureCoordsToKey` joins the integer
coordinates with `','`, which is injective on integer lists). -/
structure DBState where
  programs : List (String × Program)
  islands : List (List String)
  islandFeatureMaps : List (List (List ℤ × String))
  archive : List String
  bestProgramId : Option String
  islandBestPrograms : List (Option String)
  currentIsland : ℕ
  islandGenerations : List ℕ
  lastMigrationGeneration : ℕ
  lastIteration : ℕ
  diversityReferenceSet : List (List Char)
  featureStats : List (String × FeatureStat)
  deriving Repr, DecidableEq

/-- The `ProgramDatabase` constructor. -/
def dbInit (cfg : DatabaseConfig) : DBState where
  programs := []
  islands := List.replicate cfg.numIslands []
  islandFeatureMaps := List.replicate cfg.numIslands []
  archive := []
  bestProgramId := none
  islandBestPrograms := List.replicate cfg.numIslands none
  currentIsland := 0
  islandGenerations := List.replicate cfg.numIslands 0
  lastMigrationGeneration := 0
  lastIteration := 0
  diversityReferenceSet := []
  featureStats := []

/-- `getFitnessScore(program.metrics, featureDimensions)` for this
database's configuration. -/
def fitness (cfg : DatabaseConfig) (p : Program) : ℚ :=
  getFitnessScore p.metrics cfg.featureDimensions

/-- `ProgramDatabase.isBetter`. -/
def isBetter (cfg : DatabaseConfig) (p1 p2 : Program) : Bool :=
  if fitness cfg p1 > fitness cfg p2 then true else false

/-- `ProgramDatabase.calculateDiversity`: mean edit distance to the rolling
reference set, or 0 when the set is empty.  (No code path ever appends to
`diversityReferenceSet`, so this is 0 on every reachable state.) -/
def calculateDiversity (s : DBState) (p : Program) : ℚ :=
  if s.diversityReferenceSet.length = 0 then 0
  else (s.diversityReferenceSet.map
      (fun ref => (calculateEditDistance p.code ref : ℚ))).sum /
    s.diversityReferenceSet.length

/-- The per-dimension raw feature value inside `calculateFeatureCoords`
(`complexity` falls back to the code length when `program.complexity` is
falsy; unknown metric names yield `program.metrics[dim] || 0`). -/
def featureValue (cfg : DatabaseConfig) (s : DBState) (p : Program)
    (dim : String) : ℚ :=
  if dim = "complexity" then jsOrQ (some p.complexity) p.code.length
  else if dim = "diversity" then calculateDiversity s p
  else if dim = "score" then getFitnessScore p.metrics cfg.featureDimensions
  else jsOrQ (alGet p.metrics dim) 0

/-- `this.featureBinsPerDim[dim] || 10`. -/
def binsFor (cfg : DatabaseConfig) (dim : String) : ℕ :=
  match alGet cfg.featureBinsPerDim dim with
  | some b => if b = 0 then 10 else b
  | none => 10

/-- `calculateFeatureCoords`: bin each configured dimension's value,
threading the `featureStats` updates made by `valueTobin`. -/
def calcCoords (cfg : DatabaseConfig) (s : DBState) (p : Program) :
    List String → List (String × FeatureStat) →
      List ℤ × List (String × FeatureStat)
  | [], stats => ([], stats)
  | dim :: rest, stats =>
    match valueTobin (alGet stats dim) (featureValue cfg s p dim)
        (binsFor cfg dim) with
    | (binIdx, st') =>
      match calcCoords cfg s p rest (alSet stats dim st') with
      | (coords, stats') => (binIdx :: coords, stats')

/-- Stable insertion into an ascending run: the model of one step of JS
`Array.prototype.sort` (which is stable) with comparator
`(a, b) => f(a) - f(b)`. -/
def insertAsc {α : Type} (f : α → ℚ) (a : α) : List α → List α
  | [] => [a]
  | b :: t => if f b < f a then b :: insertAsc f a t else a :: b :: t

/-- Stable ascending sort by key `f`, modelling
`array.sort((a, b) => f(a) - f(b))`. -/
def sortByAsc {α : Type} (f : α → ℚ) (l : List α) : List α :=
  l.foldr (insertAsc f) []

/-! ### `ProgramDatabase.add`, phase by phase

`add(program, iteration?, targetIsland?)` is embedded as a composition of
phases in source order: record the iteration and store the program; compute
feature coordinates (updating `featureStats`); choose the island; run the
cell-replacement block; add to the island's resident set and annotate
`metadata.island` (the stored map entry is the same mutated object);
update the archive; enforce the population limit; update the global and
island bests. -/

/-- `program.iterationFound = iteration` (when an iteration is given). -/
def addP (program : Program) (iteration : Option ℕ) : Program :=
  match iteration with
  | some it => { program with iterationFound := it }
  | none => program

/-- `this.lastIteration = Math.max(...)` and
`this.programs.set(program.id, program)`. -/
def addRecord (s : DBState) (program : Program) (iteration : Option ℕ) :
    DBState :=
  { s with
    programs := alSet s.programs (addP program iteration).id
      (addP program iteration),
    lastIteration :=
      match iteration with
      | some it => max s.lastIteration it
      | none => s.lastIteration }

/-- The feature coordinates of the incoming program together with the
updated `featureStats`. -/
def addCoords (cfg : DatabaseConfig) (s : DBState) (program : Program)
    (iteration : Option ℕ) : List ℤ × List (String × FeatureStat) :=
  calcCoords cfg (addRecord s program iteration) (addP program iteration)
    cfg.featureDimensions (addRecord s program iteration).featureStats

/-- The state after recording the program and the feature-stats updates. -/
def addStatsState (cfg : DatabaseConfig) (s : DBState) (program : Program)
    (iteration : Option ℕ) : DBState :=
  { addRecord s program iteration with
    featureStats := (addCoords cfg s program iteration).2 }

/-- Island choice: explicit argument, else the parent's island, else the
current island; reduced modulo the number of islands. -/
def chooseIsland (s : DBState) (p : Program) (targetIsland : Option ℕ) :
    ℕ :=
  (match targetIsland with
    | some t => t
    | none =>
      match p.parentId with
      | some pid =>
        match alGet s.programs pid with
        | some parent =>
          match parent.island with
          | some i => i
          | none => s.currentIsland
        | none => s.currentIsland
      | none => s.currentIsland) % s.islands.length

/-- The island index computed by this `add` call. -/
def addIsland (cfg : DatabaseConfig) (s : DBState) (program : Program)
    (iteration targetIsland : Option ℕ) : ℕ :=
  chooseIsland (addStatsState cfg s program iteration)
    (addP program iteration) targetIsland

/-- The `shouldReplace` computation: an empty cell, a dangling occupant id
(not in the program map), or a strictly better incoming program. -/
def shouldReplaceCell (cfg : DatabaseConfig) (s : DBState) (p : Program)
    (islandIdx : ℕ) (key : List ℤ) : Bool :=
  match alGet (s.islandFeatureMaps.getD islandIdx []) key with
  | none => true
  | some existingId =>
    match alGet s.programs existingId with
    | none => true
    | some existing => isBetter cfg p existing

/-- The replacement block of `add`: when replacing, evict the old occupant
from the resident set, swap it out of the archive if present, and point the
cell at the incoming program. -/
def cellReplace (cfg : DatabaseConfig) (s : DBState) (p : Program)
    (islandIdx : ℕ) (key : List ℤ) : DBState :=
  if shouldReplaceCell cfg s p islandIdx key = true then
    match alGet (s.islandFeatureMaps.getD islandIdx []) key with
    | some existingId =>
      { s with
        islands := s.islands.set islandIdx
          (setDel (s.islands.getD islandIdx []) existingId),
        archive :=
          if existingId ∈ s.archive then
            setAdd (setDel s.archive existingId) p.id
          else s.archive,
        islandFeatureMaps := s.islandFeatureMaps.set islandIdx
          (alSet (s.islandFeatureMaps.getD islandIdx []) key p.id) }
    | none =>
      { s with
        islandFeatureMaps := s.islandFeatureMaps.set islandIdx
          (alSet (s.islandFeatureMaps.getD islandIdx []) key p.id) }
  else s

/-- The effect of `program.metadata.island = islandIdx` on one stored
record: programs holding the same `metadata` object (same `metaId`) observe
the write; others are untouched. -/
def islandTag (islandIdx mId : ℕ) (q : Program) : Program :=
  if q.metaId = mId then { q with island := some islandIdx } else q

/-- `this.islands[islandIdx].add(program.id)` and
`program.metadata.island = islandIdx`.  The island write mutates the
shared `metadata` object, so it is observed by the stored entry of the
program itself (inserted by the preceding `this.programs.set`) *and* by
every other stored program whose shallow clone or original shares that
object — modelled as updating the `island` field of every entry whose
`metaId` matches. -/
def islandInsert (s : DBState) (p : Program) (islandIdx : ℕ) : DBState :=
  { s with
    islands := s.islands.set islandIdx
      (setAdd (s.islands.getD islandIdx []) p.id),
    programs := s.programs.map
      (fun kv => (kv.1, islandTag islandIdx p.metaId kv.2)) }

/-- The lowest-fitness archive member (dangling archive ids are dropped by
the `filter(Boolean)`; ties keep insertion order because JS sort is
stable). -/
def archiveWorst (cfg : DatabaseConfig) (s : DBState) : Option Program :=
  (sortByAsc (fitness cfg) (s.archive.filterMap (alGet s.programs))).head?

/-- `ProgramDatabase.updateArchive`. -/
def updateArchive (cfg : DatabaseConfig) (s : DBState) (p : Program) :
    DBState :=
  if s.archive.length < cfg.archiveSize then
    { s with archive := setAdd s.archive p.id }
  else
    match archiveWorst cfg s with
    | some worst =>
      if isBetter cfg p worst = true then
        { s with archive := setAdd (setDel s.archive worst.id) p.id }
      else s
    | none => s

/-- One removal inside `enforcePopulationLimit`: drop the program from the
program map, from its island's resident set, and from the archive. -/
def removeProgram (s : DBState) (p : Program) : DBState :=
  { s with
    programs := alDel s.programs p.id,
    islands :=
      match p.island with
      | some i => s.islands.set i (setDel (s.islands.getD i []) p.id)
      | none => s.islands,
    archive := setDel s.archive p.id }

/-- `ProgramDatabase.enforcePopulationLimit(excludeProgramId)`. -/
def enforcePopulationLimit (cfg : DatabaseConfig) (s : DBState)
    (excludeId : String) : DBState :=
  if s.programs.length ≤ cfg.populationSize then s
  else
    ((sortByAsc (fitness cfg)
        ((s.programs.map Prod.snd).filter (fun p => p.id ≠ excludeId))).take
      (s.programs.length - cfg.populationSize)).foldl removeProgram s

/-- `ProgramDatabase.updateBestProgram`. -/
def updateBest (cfg : DatabaseConfig) (s : DBState) (p : Program) :
    DBState :=
  { s with bestProgramId :=
      match s.bestProgramId with
      | none => some p.id
      | some bid =>
        match alGet s.programs bid with
        | none => some p.id
        | some best =>
          if isBetter cfg p best = true then some p.id else some bid }

/-- `ProgramDatabase.updateIslandBestProgram`. -/
def updateIslandBest (cfg : DatabaseConfig) (s : DBState) (p : Program)
    (islandIdx : ℕ) : DBState :=
  { s with islandBestPrograms :=
      match s.islandBestPrograms.getD islandIdx none with
      | none => s.islandBestPrograms.set islandIdx (some p.id)
      | some bid =>
        match alGet s.programs bid with
        | none => s.islandBestPrograms.set islandIdx (some p.id)
        | some best =>
          if isBetter cfg p best = true then
            s.islandBestPrograms.set islandIdx (some p.id)
          else s.islandBestPrograms }

/-- `ProgramDatabase.add(program, iteration?, targetIsland?)`. -/
def add (cfg : DatabaseConfig) (s : DBState) (program : Program)
    (iteration targetIsland : Option ℕ) : DBState :=
  updateIslandBest cfg
    (updateBest cfg
      (enforcePopulationLimit cfg
        (updateArchive cfg
          (islandInsert
            (cellReplace cfg (addStatsState cfg s program iteration)
              (addP program iteration)
              (addIsland cfg s program iteration targetIsland)
              (addCoords cfg s program iteration).1)
            (addP program iteration)
            (addIsland cfg s program iteration targetIsland))
          (addP program iteration))
        program.id)
      (addP program iteration))
    (addP program iteration)
    (addIsland cfg s program iteration targetIsland)

/-! ### Migration (`shouldMigrate` / `migratePrograms`) -/

/-- `Math.min(...this.islandGenerations)` (the generation list is nonempty
on any constructed database). -/
def minGens (l : List ℕ) : ℕ :=
  match l with
  | [] => 0
  | h :: t => t.foldl min h

/-- `ProgramDatabase.shouldMigrate`. -/
def shouldMigrate (cfg : DatabaseConfig) (s : DBState) : Bool :=
  if minGens s.islandGenerations - s.lastMigrationGeneration ≥
      cfg.migrationInterval then true else false

/-- `Math.floor(populationSize * migrationRate)`. -/
def numMigrants (cfg : DatabaseConfig) : ℕ :=
  (⌊(cfg.populationSize : ℚ) * cfg.migrationRate⌋).toNat

/-- The migrants selected from one source island: its residents sorted by
descending fitness (stable), truncated to `numMigrants`. -/
def islandMigrants (cfg : DatabaseConfig) (s : DBState) (i : ℕ) :
    List Program :=
  (sortByAsc (fun p => - fitness cfg p)
      ((s.islands.getD i []).filterMap (alGet s.programs))).take
    (numMigrants cfg)

/-- Migrate one island: re-`add` each migrant as a shallow copy
`{ ...migrant, id: uuidv4() }` (`ids` supplies the fresh uuids in order)
onto island `(i+1) mod n`.  The copy keeps the migrant's `metaId` — it
shares the original's `metadata` object — so the `add` call's island
write also rewrites the island annotation of the original's stored
record (and of any other stored clone in the sharing chain), exactly as
the aliased `program.metadata.island = islandIdx` mutation does in the
source. -/
def migrateFromIsland (cfg : DatabaseConfig) (s : DBState) (i : ℕ)
    (ids : List String) : DBState :=
  ((islandMigrants cfg s i).zip ids).foldl
    (fun st mi => add cfg st { mi.1 with id := mi.2 } none
      (some ((i + 1) % s.islands.length)))
    s

/-- The island loop of `migratePrograms`. -/
def migrateLoop (cfg : DatabaseConfig) (s : DBState)
    (idSupply : List (List String)) : DBState :=
  (List.range s.islands.length).foldl
    (fun st i => migrateFromIsland cfg st i (idSupply.getD i [])) s

/-- `ProgramDatabase.migratePrograms` with an explicit supply of fresh ids
(`idSupply.getD i []` are the uuids minted for island `i`'s migrants); the
migration counter then advances to the new minimum generation. -/
def migratePrograms (cfg : DatabaseConfig) (s : DBState)
    (idSupply : List (List String)) : DBState :=
  { migrateLoop cfg s idSupply with
    lastMigrationGeneration :=
      minGens (migrateLoop cfg s idSupply).islandGenerations }

/-- `ProgramDatabase.incrementIslandGeneration`. -/
def incrementIslandGeneration (s : DBState) (islandIdx : ℕ) : DBState :=
  { s with islandGenerations :=
      (s.islandGenerations.set islandIdx
        (s.islandGenerations.getD islandIdx 0 + 1)) }

/-! ### Sampling (`ProgramDatabase.sampleFromIsland` and helpers)

Note the source signature is `sampleFromIsland(islandId, numInspirations)`:
there is **no strategy parameter**.  The parent branch is chosen by drawing
`Math.random()` against `explorationRatio` / `exploitationRatio`.  Each
`Math.random()` draw is modelled as an explicit rational in `[0, 1)`. -/

/-- `array[Math.floor(r * array.length)]` for a uniform draw `r`. -/
def randIndex (r : ℚ) (n : ℕ) : ℕ :=
  (⌊r * n⌋).toNat

/-- `ProgramDatabase.sampleFromIslandRandom` (the `!` lookup is modelled as
an `Option`). -/
def sampleFromIslandRandom (s : DBState) (islandId : ℕ) (r : ℚ) :
    Option Program :=
  match (s.islands.getD islandId []).get?
      (randIndex r (s.islands.getD islandId []).length) with
  | some id => alGet s.programs id
  | none => none

/-- The archive members resident on the given island. -/
def islandArchive (s : DBState) (islandId : ℕ) : List String :=
  s.archive.filter (fun id =>
    match alGet s.programs id with
    | some p => p.island = some islandId
    | none => false)

/-- `ProgramDatabase.sampleFromArchiveForIsland`: uniform from the archive
subset on this island, falling back to a uniform resident when empty. -/
def sampleFromArchiveForIsland (s : DBState) (islandId : ℕ) (r : ℚ) :
    Option Program :=
  if (islandArchive s islandId).length = 0 then
    sampleFromIslandRandom s islandId r
  else
    match (islandArchive s islandId).get?
        (randIndex r (islandArchive s islandId).length) with
    | some id => alGet s.programs id
    | none => none

/-- The cumulative scan of `sampleFromIslandWeighted`: return the first
program whose cumulative fitness exceeds `rand`, else the last program. -/
def pickWeighted (cfg : DatabaseConfig) : List Program → ℚ → ℚ →
    Option Program
  | [], _, _ => none
  | p :: rest, rand, cum =>
    if rand < cum + fitness cfg p then some p
    else
      match rest with
      | [] => some p
      | _ :: _ => pickWeighted cfg rest rand (cum + fitness cfg p)

/-- `ProgramDatabase.sampleFromIslandWeighted`. -/
def sampleFromIslandWeighted (cfg : DatabaseConfig) (s : DBState)
    (islandId : ℕ) (r : ℚ) : Option Program :=
  pickWeighted cfg ((s.islands.getD islandId []).filterMap (alGet s.programs))
    (r * (((s.islands.getD islandId []).filterMap
      (alGet s.programs)).map (fitness cfg)).sum) 0

/-- The parent-selection part of `sampleFromIsland(islandId,
numInspirations)`: `randVal` is the `Math.random()` draw deciding the
branch, `r2` the draw consumed inside the chosen sampler.  An empty island
throws in the source (`none` here).  The source function has no strategy
parameter; the branch depends only on `randVal` and the configured
ratios. -/
def sampleParent (cfg : DatabaseConfig) (s : DBState) (islandId : ℕ)
    (randVal r2 : ℚ) : Option Program :=
  if ((s.islands.getD (islandId % s.islands.length) []) = []) then none
  else if randVal < cfg.explorationRatio then
    sampleFromIslandRandom s (islandId % s.islands.length) r2
  else if randVal < cfg.explorationRatio + cfg.exploitationRatio then
    sampleFromArchiveForIsland s (islandId % s.islands.length) r2
  else
    sampleFromIslandWeighted cfg s (islandId % s.islands.length) r2

/-- The inspiration ids of `sampleFromIsland`: the island's residents
except the chosen parent; all of them when at most `numInspirations`
remain, else `numInspirations` entries drawn without replacement (the
shuffle of `sampleRandom` is abstracted as the permuted list `shuffled`,
constrained to be a permutation where this definition is used). -/
def inspirationIds (s : DBState) (islandId : ℕ) (parentId : String)
    (numInspirations : ℕ) (shuffled : List String) : List String :=
  if ((s.islands.getD islandId []).filter (fun id => id ≠ parentId)).length
      ≤ numInspirations then
    (s.islands.getD islandId []).filter (fun id => id ≠ parentId)
  else shuffled.take numInspirations

/-! ### Reachable database states (claim C1)

A state is reachable when it arises from the constructor by `add` calls,
migrations, and generation bumps.  Program ids minted by the engine are
fresh uuids, which the constructors capture as freshness side conditions
(`idOccursB`). -/

/-- Does `id` occur anywhere in the database state (program map keys,
resident sets, cell-map occupants, archive)? -/
def idOccursB (s : DBState) (id : String) : Bool :=
  alHas s.programs id ||
    s.islands.any (fun isl => isl.any (fun y => y = id)) ||
    s.islandFeatureMaps.any (fun fm => fm.any (fun kv => kv.2 = id)) ||
    s.archive.any (fun y => y = id)

/-- The reachable states of a `ProgramDatabase`. -/
inductive Reachable (cfg : DatabaseConfig) : DBState → Prop
  | init : Reachable cfg (dbInit cfg)
  | add (s : DBState) (p : Program) (iteration targetIsland : Option ℕ)
      (hs : Reachable cfg s) (hfresh : idOccursB s p.id = false) :
      Reachable cfg (add cfg s p iteration targetIsland)
  | migrate (s : DBState) (idSupply : List (List String))
      (hs : Reachable cfg s)
      (hfresh : ∀ id ∈ idSupply.flatten, idOccursB s id = false)
      (hnodup : idSupply.flatten.Nodup) :
      Reachable cfg (migratePrograms cfg s idSupply)
  | incrementGen (s : DBState) (islandIdx : ℕ) (hs : Reachable cfg s) :
      Reachable cfg (incrementIslandGeneration s islandIdx)

/-- The parts of the claimed island invariant that hold on the code (the
amended C1): each island cell map is a genuine map (duplicate-free keys),
each occupant id occurs in at most one cell across all islands, and every
occupant id that is still in the program map is resident on its island.
Occupants evicted by the population limit stay in the cell map as dangling
ids, which is why residency can only be asserted for live occupants. -/
def CellInvariant (s : DBState) : Prop :=
  s.islandFeatureMaps.length = s.islands.length ∧
  (∀ fm ∈ s.islandFeatureMaps, (fm.map Prod.fst).Nodup) ∧
  (∀ k k' : ℕ, ∀ key key' : List ℤ, ∀ id : String,
    (alGet (s.islandFeatureMaps.getD k []) key = some id) →
    (alGet (s.islandFeatureMaps.getD k' []) key' = some id) →
    k = k' ∧ key = key') ∧
  (∀ k : ℕ, ∀ key : List ℤ, ∀ id : String,
    alGet (s.islandFeatureMaps.getD k []) key = some id →
    (alGet s.programs id).isSome = true →
    id ∈ s.islands.getD k [])

/-! ## Evaluator retry loop (`Evaluator.evaluateProgram` in
`engine/evaluator.ts`)

The embedding abstracts one `await cascadeEvaluate(...)` /
`directEvaluate(...)` call as an input function from the attempt index to
either metrics plus optional artifacts (`.ok`) or a thrown error message
(`.error`, which also covers timeout rejections).  `useLlmFeedback` merges
abstracted `llmEvaluate` metrics (the code additionally requires an LLM
ensemble to be configured; a missing ensemble is modelled by passing
`false`).  The observable trace records the number of attempts, every write
to the pending-artifacts map, the retry sleeps (in milliseconds), and the
returned metrics. -/

/-- One write to `this.pendingArtifacts`. -/
inductive ArtifactWrite
  | success (programId : String) (artifacts : List (String × String))
  | failure (programId : String) (stderr : String) (failureStage : String)
      (attempt : ℕ)
  deriving Repr, DecidableEq

/-- The observable behaviour of one `evaluateProgram` call. -/
structure EvalTrace where
  attemptsMade : ℕ
  artifactWrites : List ArtifactWrite
  sleepsMs : List ℕ
  result : Metrics
  deriving Repr, DecidableEq

/-- The LLM-feedback merge: `result.metrics['llm_' + name] = value *
llmFeedbackWeight` for each metric in the feedback. -/
def mergeLlmFeedback (metrics : Metrics) (llm : Option Metrics) (w : ℚ) :
    Metrics :=
  match llm with
  | none => metrics
  | some lm => lm.foldl (fun acc kv => alSet acc ("llm_" ++ kv.1)
      (kv.2 * w)) metrics

/-- The retry `for` loop of `evaluateProgram`: `fuel` is the number of
remaining loop passes (`maxRetries + 1` at entry), `attempt` the current
0-based attempt index.  A sleep of 1000 ms happens after a failed attempt
when `attempt < maxRetries`; exhausting the loop returns `{ error: 0.0 }`. -/
def evalGo (maxRetries : ℕ) (artifactsEnabled : Bool) (programId : String)
    (attempts : ℕ → Except String (Metrics × Option (List (String × String))))
    (useLlmFeedback : Bool) (llmFeedback : Option Metrics)
    (llmFeedbackWeight : ℚ) : ℕ → ℕ → EvalTrace
  | _, 0 => ⟨0, [], [], [("error", 0)]⟩
  | attempt, fuel + 1 =>
    match attempts attempt with
    | .ok (metrics, arts) =>
      ⟨1,
        if artifactsEnabled = true ∧ arts.isSome ∧ programId ≠ "" then
          [ArtifactWrite.success programId (arts.getD [])]
        else [],
        [],
        if useLlmFeedback = true then
          mergeLlmFeedback metrics llmFeedback llmFeedbackWeight
        else metrics⟩
    | .error msg =>
      ⟨(evalGo maxRetries artifactsEnabled programId attempts useLlmFeedback
          llmFeedback llmFeedbackWeight (attempt + 1) fuel).attemptsMade + 1,
        (if artifactsEnabled = true ∧ programId ≠ "" then
          [ArtifactWrite.failure programId msg "evaluation" (attempt + 1)]
        else []) ++
          (evalGo maxRetries artifactsEnabled programId attempts
            useLlmFeedback llmFeedback llmFeedbackWeight (attempt + 1)
            fuel).artifactWrites,
        (if attempt < maxRetries then [1000] else []) ++
          (evalGo maxRetries artifactsEnabled programId attempts
            useLlmFeedback llmFeedback llmFeedbackWeight (attempt + 1)
            fuel).sleepsMs,
        (evalGo maxRetries artifactsEnabled programId attempts useLlmFeedback
          llmFeedback llmFeedbackWeight (attempt + 1) fuel).result⟩

/-- `Evaluator.evaluateProgram(programCode, programId)`: run the retry loop
for `maxRetries + 1` attempts starting at attempt 0. -/
def evaluateProgram (maxRetries : ℕ) (artifactsEnabled : Bool)
    (programId : String)
    (attempts : ℕ → Except String (Metrics × Option (List (String × String))))
    (useLlmFeedback : Bool) (llmFeedback : Option Metrics)
    (llmFeedbackWeight : ℚ) : EvalTrace :=
  evalGo maxRetries artifactsEnabled programId attempts useLlmFeedback
    llmFeedback llmFeedbackWeight 0 (maxRetries + 1)

/-! ## Template manager (`TemplateManager` in `engine/prompt/templates.ts`)

Directory listings are modelled as lists of `(fileName, contents)` pairs in
directory-iteration order. -/

/-- `file.endsWith('.txt')`. -/
def endsWithTxt (s : String) : Bool :=
  ".txt".toList.isSuffixOf s.toList

/-- `path.basename(file, '.txt')`. -/
def basenameTxt (s : String) : String :=
  String.mk (s.toList.take (s.toList.length - 4))

/-- `loadTemplatesFromDir`: for each `.txt` file, `templates.set(basename,
contents)`. -/
def loadTemplatesFromDir (templates : List (String × String))
    (files : List (String × String)) : List (String × String) :=
  files.foldl
    (fun acc f =>
      if endsWithTxt f.1 = true then alSet acc (basenameTxt f.1) f.2
      else acc)
    templates

/-- `loadTemplates`: load the custom directory first (when present), then
the default directory, into the same map. -/
def loadTemplates (customDir : Option (List (String × String)))
    (defaultDir : List (String × String)) : List (String × String) :=
  loadTemplatesFromDir
    (match customDir with
      | some files => loadTemplatesFromDir [] files
      | none => [])
    defaultDir

/-- `getTemplate(name)`: the stored template, or the empty string when the
name is unknown (an empty stored template is also returned as `''`). -/
def getTemplate (templates : List (String × String)) (name : String) :
    String :=
  match alGet templates name with
  | some t => t
  | none => ""

/-! ## Controller run loop (`EvolutionEngine.run` in `engine/controller.ts`)

The loop body is `await runIteration(iteration)`, then the target-score
check (`break` on success), then the checkpoint, then the status update
`this.status.iteration = iteration`.  The embedding abstracts the best
program's `combined_score` after iteration `i` as an input function
(`none` models "no best program" or a best program without a
`combined_score`; the JS comparison `undefined >= t` is false).  The stop
flag stays false and no iteration throws. -/

/-- `best && best.metrics.combined_score >= targetScore` after iteration
`i`. -/
def targetReached (bestAfter : ℕ → Option ℚ) (targetScore : Option ℚ)
    (i : ℕ) : Bool :=
  match targetScore with
  | none => false
  | some t =>
    match bestAfter i with
    | some s => if s ≥ t then true else false
    | none => false

/-- The `for` loop of `run`: `fuel` counts the remaining iterations of
`iteration ≤ iterations`; returns `(last iteration executed, final
status.iteration)`. -/
def runLoopGo (bestAfter : ℕ → Option ℚ) (targetScore : Option ℚ) :
    ℕ → ℕ → ℕ → ℕ × ℕ
  | 0, iter, statusIter => (iter - 1, statusIter)
  | fuel + 1, iter, statusIter =>
    if targetReached bestAfter targetScore iter = true then
      (iter, statusIter)
    else runLoopGo bestAfter targetScore fuel (iter + 1) iter

/-- `EvolutionEngine.run(maxIterations?, targetScore?)`: the loop starts at
iteration 1 with `status.iteration` reset to 0. -/
def engineRun (bestAfter : ℕ → Option ℚ) (targetScore : Option ℚ)
    (iterations : ℕ) : ℕ × ℕ :=
  runLoopGo bestAfter targetScore iterations 1 0

/-! ## Concrete test fixtures

A small database configuration and a handful of program records used to
evaluate the embedded `ProgramDatabase` operations on closed inputs: a
population limit of 1 makes the interaction between the MAP-Elites cell
maps and `enforcePopulationLimit` observable after two insertions. -/

/-- A one-island database with `populationSize = 1` and a single
`complexity` feature dimension (10 bins by default). -/
def cfgC1 : DatabaseConfig where
  populationSize := 1
  archiveSize := 3
  numIslands := 1
  explorationRatio := 1/5
  exploitationRatio := 7/10
  featureDimensions := ["complexity"]
  featureBinsPerDim := []
  migrationInterval := 10
  migrationRate := 1/10

/-- Program `a`: `combined_score` 1, complexity 5. -/
def pA : Program where
  id := "a"
  code := []
  parentId := none
  generation := 0
  iterationFound := 0
  metrics := [("combined_score", 1)]
  complexity := 5
  island := none
  metaId := 0

/-- Program `b`: `combined_score` 2, complexity 10. -/
def pB : Program where
  id := "b"
  code := []
  parentId := none
  generation := 0
  iterationFound := 0
  metrics := [("combined_score", 2)]
  complexity := 10
  island := none
  metaId := 1

/-- Program `c`: `combined_score` 0, complexity 5 (same feature cell as
`pA`, strictly lower fitness). -/
def pC : Program where
  id := "c"
  code := []
  parentId := none
  generation := 0
  iterationFound := 0
  metrics := [("combined_score", 0)]
  complexity := 5
  island := none
  metaId := 2

/-- `pA` as stored after insertion (annotated with its island). -/
def pA0 : Program := { pA with island := some 0 }

/-- `pB` as stored after insertion. -/
def pB0 : Program := { pB with island := some 0 }

/-- The database state after `add cfgC1 (dbInit cfgC1) pA`. -/
def s1lit : DBState where
  programs := [("a", pA0)]
  islands := [["a"]]
  islandFeatureMaps := [[([0], "a")]]
  archive := ["a"]
  bestProgramId := some "a"
  islandBestPrograms := [some "a"]
  currentIsland := 0
  islandGenerations := [0]
  lastMigrationGeneration := 0
  lastIteration := 0
  diversityReferenceSet := []
  featureStats := [("complexity", ⟨5, 5, [5]⟩)]

/-- The database state after the further `add cfgC1 s1lit pB`: the
population limit evicted `pA` from the program map, the resident set and
the archive, but its id is still the occupant of cell `[0]`. -/
def s2lit : DBState where
  programs := [("b", pB0)]
  islands := [["b"]]
  islandFeatureMaps := [[([0], "a"), ([9], "b")]]
  archive := ["b"]
  bestProgramId := some "b"
  islandBestPrograms := [some "b"]
  currentIsland := 0
  islandGenerations := [0]
  lastMigrationGeneration := 0
  lastIteration := 0
  diversityReferenceSet := []
  featureStats := [("complexity", ⟨5, 10, [5, 10]⟩)]

/-- The database state after the further `add cfgC1 s2lit pC`: the
incoming low-fitness `pC` took over cell `[0]` from the dangling occupant
`a`, and the population limit then evicted `pB`. -/
def s3lit : DBState where
  programs := [("c", { pC with island := some 0 })]
  islands := [["c"]]
  islandFeatureMaps := [[([0], "c"), ([9], "b")]]
  archive := ["c"]
  bestProgramId := some "c"
  islandBestPrograms := [some "c"]
  currentIsland := 0
  islandGenerations := [0]
  lastMigrationGeneration := 0
  lastIteration := 0
  diversityReferenceSet := []
  featureStats := [("complexity", ⟨5, 10, [5, 10, 5]⟩)]

/-- A two-resident island whose archive member `b` is resident on island
0, for exercising the parent-selection branches of `sampleFromIsland`. -/
def c4state : DBState where
  programs := [("a", pA0), ("b", pB0)]
  islands := [["a", "b"]]
  islandFeatureMaps := [[]]
  archive := ["b"]
  bestProgramId := some "b"
  islandBestPrograms := [some "b"]
  currentIsland := 0
  islandGenerations := [0]
  lastMigrationGeneration := 0
  lastIteration := 0
  diversityReferenceSet := []
  featureStats := []

end OpenEvolve

namespace OpenEvolve

/-! ## Theorems: diff application (claim C7) -/

theorem firstOcc_le_length (s pat : List Char) (i : ℕ)
    (h : firstOcc s pat = some i) : i ≤ s.length := by
  induction s generalizing i with
  | nil =>
    rw [firstOcc] at h
    split at h
    · simp_all
    · simp at h
  | cons c t ih =>
    rw [firstOcc] at h
    split at h
    · simp only [Option.some.injEq] at h
      omega
    · simp only [Option.map_eq_some'] at h
      obtain ⟨j, hj, rfl⟩ := h
      simpa using Nat.succ_le_succ (ih j hj)

theorem firstOcc_isPrefix (s pat : List Char) (i : ℕ)
    (h : firstOcc s pat = some i) : pat.isPrefixOf (s.drop i) := by
  induction s generalizing i with
  | nil =>
    rw [firstOcc] at h
    split at h
    · simp_all
    · simp at h
  | cons c t ih =>
    rw [firstOcc] at h
    split at h
    · rename_i hpre
      simp only [Option.some.injEq] at h
      subst h
      simpa using hpre
    · simp only [Option.map_eq_some'] at h
      obtain ⟨j, hj, rfl⟩ := h
      simpa using ih j hj

/-- Decomposition of a string at the first occurrence of a pattern. -/
theorem firstOcc_decomp (s pat : List Char) (i : ℕ)
    (h : firstOcc s pat = some i) :
    s = s.take i ++ pat ++ s.drop (i + pat.length) := by
  have hpre := firstOcc_isPrefix s pat i h
  rw [List.isPrefixOf_iff_prefix] at hpre
  obtain ⟨rest, hrest⟩ := hpre
  have hdrop : s.drop i = pat ++ rest := hrest.symm
  have h2 : s.drop (i + pat.length) = rest := by
    have h3 : s.drop (i + pat.length) = (s.drop i).drop pat.length := by
      rw [List.drop_drop, Nat.add_comm]
    rw [h3, hdrop, List.drop_left]
  calc s = s.take i ++ s.drop i := (List.take_append_drop i s).symm
    _ = s.take i ++ (pat ++ rest) := by rw [hdrop]
    _ = s.take i ++ pat ++ s.drop (i + pat.length) := by
        rw [h2, List.append_assoc]

/-- The unfolding equation of `dollarExpand` at a nonempty replacement. -/
theorem dollarExpand_cons (matched pre post : List Char) (c : Char)
    (t : List Char) :
    dollarExpand matched pre post (c :: t) =
      if c = '$' then
        match t with
        | [] => ['$']
        | d :: t2 =>
          if d = '$' then '$' :: dollarExpand matched pre post t2
          else if d = '&' then matched ++ dollarExpand matched pre post t2
          else if d = Char.ofNat 96 then
            pre ++ dollarExpand matched pre post t2
          else if d = Char.ofNat 39 then
            post ++ dollarExpand matched pre post t2
          else '$' :: d :: dollarExpand matched pre post t2
      else c :: dollarExpand matched pre post t := by
  cases t <;> rfl

/-- A replacement text without a dollar character expands to itself. -/
theorem dollarExpand_no_dollar (matched pre post : List Char) :
    ∀ rep : List Char, ¬ '$' ∈ rep →
      dollarExpand matched pre post rep = rep
  | [], _ => rfl
  | c :: t, h => by
    rw [List.mem_cons, not_or] at h
    rw [dollarExpand_cons, if_neg (fun hc => h.1 hc.symm),
      dollarExpand_no_dollar matched pre post t h.2]

theorem replaceFirst_of_firstOcc (s pat rep : List Char) (i : ℕ)
    (h : firstOcc s pat = some i) :
    replaceFirst s pat rep = s.take i ++
      dollarExpand pat (s.take i) (s.drop (i + pat.length)) rep ++
      s.drop (i + pat.length) := by
  simp [replaceFirst, h]

theorem replaceFirst_no_dollar (s pat rep : List Char) (i : ℕ)
    (h : firstOcc s pat = some i) (hrep : ¬ '$' ∈ rep) :
    replaceFirst s pat rep = s.take i ++ rep ++ s.drop (i + pat.length) := by
  rw [replaceFirst_of_firstOcc s pat rep i h,
    dollarExpand_no_dollar pat (s.take i) (s.drop (i + pat.length)) rep
      hrep]

/-- Dollar expansion is observable: replacing the single `"b"` of `"ab"`
by a dollar-backquote replacement inserts the portion *before* the match,
giving `"aa"` rather than the literal two-character replacement. -/
theorem replaceFirst_dollar_example :
    replaceFirst [ 'a', 'b' ] [ 'b' ] [ '$', Char.ofNat 96 ] =
      [ 'a', 'a' ] := by decide

theorem take_length_take {s : List Char} {i : ℕ} (h : i ≤ s.length) :
    (s.take i).length = i := by
  simp [List.length_take, Nat.min_eq_left h]

/-- C7 counterexample: take `C = "ba"`, `D = SEARCH("a")/REPLACE("b")`.
The search string `"a"` occurs exactly once in `C`, yet applying `D` gives
`"bb"` and applying the inverse `SEARCH("b")/REPLACE("a")` replaces the
*first* `"b"` — the one that was already in `C` — giving `"ab" ≠ "ba"`. -/
theorem applyDiffs_roundtrip_counterexample :
    occCount [ 'b', 'a' ] [ 'a' ] = 1 ∧
    applyDiffs (applyDiffs [ 'b', 'a' ] [([ 'a' ], [ 'b' ])])
        [([ 'b' ], [ 'a' ])] ≠ [ 'b', 'a' ] := by
  constructor
  · decide
  · decide

/-- C7 (amended).  Diff application replaces the first literal occurrence of
the search string by the dollar-expanded replacement (JS `GetSubstitution`;
a replacement without a dollar character is inserted literally), returns
the code unchanged when the search string does not occur, and the round
trip through the inverse diff restores the original code provided
additionally that neither string contains a dollar character and that the
first occurrence of the replacement string `Y` in the transformed code is
at the position where `X` was replaced (the counterexample shows "X occurs
exactly once" alone does not suffice). -/
theorem applyDiffs_spec :
    (∀ (C X Y : List Char) (i : ℕ), occCount C X = 1 →
      firstOcc C X = some i → ¬ '$' ∈ X → ¬ '$' ∈ Y →
      firstOcc (replaceFirst C X Y) Y = some i →
      applyDiffs (applyDiffs C [(X, Y)]) [(Y, X)] = C) ∧
    (∀ C X Y : List Char, firstOcc C X = none →
      applyDiffs C [(X, Y)] = C) ∧
    (∀ (C X Y : List Char) (i : ℕ), firstOcc C X = some i →
      applyDiffs C [(X, Y)] = C.take i ++
        dollarExpand X (C.take i) (C.drop (i + X.length)) Y ++
        C.drop (i + X.length)) := by
  refine ⟨?_, ?_, ?_⟩
  · intro C X Y i hcount hX hXd hYd hY
    have hiC : i ≤ C.length := firstOcc_le_length C X i hX
    have hD : applyDiffs C [(X, Y)] =
        C.take i ++ Y ++ C.drop (i + X.length) := by
      simp [applyDiffs, replaceFirst_no_dollar C X Y i hX hYd]
    have hD' : replaceFirst C X Y =
        C.take i ++ Y ++ C.drop (i + X.length) :=
      replaceFirst_no_dollar C X Y i hX hYd
    rw [hD]
    have hback : applyDiffs (C.take i ++ Y ++ C.drop (i + X.length))
        [(Y, X)] =
        (C.take i ++ Y ++ C.drop (i + X.length)).take i ++ X ++
          (C.take i ++ Y ++ C.drop (i + X.length)).drop (i + Y.length) := by
      rw [← hD']
      simpa [applyDiffs] using
        replaceFirst_no_dollar (replaceFirst C X Y) Y X i hY hXd
    rw [hback]
    have htake : (C.take i ++ Y ++ C.drop (i + X.length)).take i =
        C.take i := by
      rw [List.append_assoc]
      exact List.take_left' (take_length_take hiC)
    have hdrop : (C.take i ++ Y ++ C.drop (i + X.length)).drop
        (i + Y.length) = C.drop (i + X.length) := by
      apply List.drop_left'
      simp [take_length_take hiC]
    rw [htake, hdrop]
    exact (firstOcc_decomp C X i hX).symm
  · intro C X Y h
    simp [applyDiffs, replaceFirst, h]
  · intro C X Y i h
    simp [applyDiffs, replaceFirst_of_firstOcc C X Y i h]

/-- Witness for `applyDiffs_spec` at `C = "xay"`, `X = "a"`, `Y = "b"`. -/
theorem applyDiffs_spec_witness :
    applyDiffs (applyDiffs [ 'x', 'a', 'y' ] [([ 'a' ], [ 'b' ])])
      [([ 'b' ], [ 'a' ])] = [ 'x', 'a', 'y' ] :=
  applyDiffs_spec.1 [ 'x', 'a', 'y' ] [ 'a' ] [ 'b' ] 1 (by decide)
    (by decide) (by decide) (by decide) (by decide)

/-! ## Theorems: value-to-bin conversion (claim C10) -/

/-- C10: `valueTobin` is total and, for a positive bin count, returns a bin
index in `[0, bins-1]`: the first value for a dimension yields bin 0 and
initializes the running min/max, a zero range yields bin 0, and otherwise the
result is `⌊(value-min)/(max-min)*bins⌋` clamped above by `bins-1` (the
min/max being the running statistics updated with the incoming value).  The
division is only taken on a provably nonzero range. -/
theorem valueTobin_spec (stats : Option FeatureStat) (value : ℚ)
    (bins : ℕ) (hbins : 1 ≤ bins) :
    0 ≤ (valueTobin stats value bins).1 ∧
    (valueTobin stats value bins).1 ≤ (bins : ℤ) - 1 ∧
    (stats = none →
      (valueTobin stats value bins).1 = 0 ∧
      (valueTobin stats value bins).2 = ⟨value, value, [value]⟩) ∧
    (∀ st : FeatureStat, stats = some st →
      max st.max value - min st.min value = 0 →
      (valueTobin stats value bins).1 = 0) ∧
    (∀ st : FeatureStat, stats = some st →
      max st.max value - min st.min value ≠ 0 →
      (valueTobin stats value bins).1 =
        min ⌊(value - min st.min value) /
            (max st.max value - min st.min value) * bins⌋ ((bins : ℤ) - 1)) := by
  have hb1 : (0 : ℤ) ≤ (bins : ℤ) - 1 := by
    have : (1 : ℤ) ≤ (bins : ℤ) := by exact_mod_cast hbins
    omega
  match stats with
  | none =>
    refine ⟨le_refl 0, hb1, fun _ => ⟨rfl, rfl⟩, ?_, ?_⟩ <;> intro st hst <;>
      cases hst
  | some st =>
    have hmin : min st.min value ≤ value := min_le_right _ _
    have hmax : value ≤ max st.max value := le_max_right _ _
    by_cases hr : max st.max value - min st.min value = 0
    · refine ⟨?_, ?_, ?_, ?_, ?_⟩
      · simp [valueTobin, hr]
      · simp [valueTobin, hr, hb1]
      · intro h; cases h
      · intro st' hst' _; cases hst'; simp [valueTobin, hr]
      · intro st' hst' hne; cases hst'; exact absurd hr hne
    · have hrpos : 0 < max st.max value - min st.min value := by
        have : 0 ≤ max st.max value - min st.min value := by linarith
        rcases lt_or_eq_of_le this with h | h
        · exact h
        · exact absurd h.symm hr
      have hq : (0 : ℚ) ≤ (value - min st.min value) /
          (max st.max value - min st.min value) * bins := by
        apply mul_nonneg
        · exact div_nonneg (by linarith) (le_of_lt hrpos)
        · exact_mod_cast Nat.zero_le bins
      have hfl : (0 : ℤ) ≤ ⌊(value - min st.min value) /
          (max st.max value - min st.min value) * bins⌋ :=
        Int.floor_nonneg.mpr hq
      refine ⟨?_, ?_, ?_, ?_, ?_⟩
      · simp only [valueTobin, hr, if_false]
        exact le_min hfl hb1
      · simp only [valueTobin, hr, if_false]
        exact min_le_right _ _
      · intro h; cases h
      · intro st' hst' h0; cases hst'; exact absurd h0 hr
      · intro st' hst' _; cases hst'; simp [valueTobin, hr]

/-! ## Theorems: adaptive sampling policy (claim C3) -/

theorem Policy.flooredTotal_pos (p : Policy) : 0 < p.flooredTotal := by
  have h1 : (1/20 : ℚ) ≤ max (1/20) p.exploreProb := le_max_left _ _
  have h2 : (1/20 : ℚ) ≤ max (1/20) p.exploitProb := le_max_left _ _
  have h3 : (1/20 : ℚ) ≤ max (1/20) p.backtrackProb := le_max_left _ _
  rw [Policy.flooredTotal]
  linarith

theorem Policy.normalize_good (q : Policy) :
    q.normalize.exploreProb + q.normalize.exploitProb +
        q.normalize.backtrackProb = 1 ∧
      0 < q.normalize.exploreProb ∧ 0 < q.normalize.exploitProb ∧
      0 < q.normalize.backtrackProb := by
  have ht : 0 < q.flooredTotal := q.flooredTotal_pos
  refine ⟨?_, ?_, ?_, ?_⟩
  · rw [Policy.normalize]
    show max (1/20) q.exploreProb / q.flooredTotal +
        max (1/20) q.exploitProb / q.flooredTotal +
        max (1/20) q.backtrackProb / q.flooredTotal = 1
    rw [div_add_div_same, div_add_div_same, Policy.flooredTotal,
      div_self (by have := q.flooredTotal_pos; rw [Policy.flooredTotal] at this; linarith)]
  all_goals
    refine div_pos (lt_of_lt_of_le (by norm_num) (le_max_left _ _)) ht

/-- C3 counterexample: starting from the default configuration
(`initialExploreProb = 0.3`, `initialExploitProb = 0.5`,
`initialBacktrackProb = 0.2`, `adaptationRate = 0.1`), six consecutive
stagnation updates (`momentum = 0`, `absoluteProgress = peerBest = 0`) drive
`exploitProb` below the claimed floor of `0.05`: the sixth update floors the
raw exploit probability at `0.05`, but the post-floor sum exceeds 1, so the
final renormalization divides it below `0.05`. -/
theorem adaptiveSamplingPolicy_floor_counterexample :
    (policyRun defaultPacevolveConfig
      (List.replicate 6 ((0:ℚ), some (0:ℚ), some (0:ℚ)))).exploitProb
      < 1/20 := by
  have h0 : policyInit defaultPacevolveConfig = ⟨3/10, 1/2, 1/5⟩ := by
    norm_num [policyInit, Policy.normalize, Policy.flooredTotal,
      defaultPacevolveConfig]
  have h1 : policyUpdate defaultPacevolveConfig ⟨3/10, 1/2, 1/5⟩ 0
      (some 0) (some 0) = ⟨20/53, 43/106, 23/106⟩ := by
    norm_num [policyUpdate, policyAdjust, laggingFlag, Policy.normalize,
      Policy.flooredTotal, defaultPacevolveConfig]
  have h2 : policyUpdate defaultPacevolveConfig ⟨20/53, 43/106, 23/106⟩ 0
      (some 0) (some 0) = ⟨1265/2809, 1779/5618, 1309/5618⟩ := by
    norm_num [policyUpdate, policyAdjust, laggingFlag, Policy.normalize,
      Policy.flooredTotal, defaultPacevolveConfig]
  have h3 : policyUpdate defaultPacevolveConfig
      ⟨1265/2809, 1779/5618, 1309/5618⟩ 0 (some 0) (some 0) =
      ⟨77295/148877, 69287/297754, 73877/297754⟩ := by
    norm_num [policyUpdate, policyAdjust, laggingFlag, Policy.normalize,
      Policy.flooredTotal, defaultPacevolveConfig]
  have h4 : policyUpdate defaultPacevolveConfig
      ⟨77295/148877, 69287/297754, 73877/297754⟩ 0 (some 0) (some 0) =
      ⟨4609135/7890481, 2422211/15780962, 4140481/15780962⟩ := by
    norm_num [policyUpdate, policyAdjust, laggingFlag, Policy.normalize,
      Policy.flooredTotal, defaultPacevolveConfig]
  have h5 : policyUpdate defaultPacevolveConfig
      ⟨4609135/7890481, 2422211/15780962, 4140481/15780962⟩ 0
      (some 0) (some 0) =
      ⟨269909155/418195493, 65877183/836390986, 230695493/836390986⟩ := by
    norm_num [policyUpdate, policyAdjust, laggingFlag, Policy.normalize,
      Policy.flooredTotal, defaultPacevolveConfig]
  have h6 : policyUpdate defaultPacevolveConfig
      ⟨269909155/418195493, 65877183/836390986, 230695493/836390986⟩ 0
      (some 0) (some 0) =
      ⟨15586435215/23026604512, 2090977465/46053209024,
        12789361129/46053209024⟩ := by
    norm_num [policyUpdate, policyAdjust, laggingFlag, Policy.normalize,
      Policy.flooredTotal, defaultPacevolveConfig]
  simp only [policyRun, List.replicate, List.foldl, h0, h1, h2, h3, h4, h5,
    h6]
  norm_num

/-- C3 (amended).  After construction and after every sequence of `update`
calls, the three action probabilities sum to exactly 1 (hence within `1e-9`)
and each is strictly positive.  Each probability is floored at `0.05`
*before* the final renormalization, but when flooring pushes the total above
1 the division can leave a probability below `0.05`
(`adaptiveSamplingPolicy_floor_counterexample`). -/
theorem adaptiveSamplingPolicy_spec (cfg : PACEvolveConfig)
    (updates : List (ℚ × Option ℚ × Option ℚ)) :
    (policyRun cfg updates).exploreProb +
        (policyRun cfg updates).exploitProb +
        (policyRun cfg updates).backtrackProb = 1 ∧
      0 < (policyRun cfg updates).exploreProb ∧
      0 < (policyRun cfg updates).exploitProb ∧
      0 < (policyRun cfg updates).backtrackProb := by
  suffices h : ∀ (l : List (ℚ × Option ℚ × Option ℚ)) (q : Policy),
      (l.foldl (fun p u => policyUpdate cfg p u.1 u.2.1 u.2.2)
        q.normalize).exploreProb +
        (l.foldl (fun p u => policyUpdate cfg p u.1 u.2.1 u.2.2)
          q.normalize).exploitProb +
        (l.foldl (fun p u => policyUpdate cfg p u.1 u.2.1 u.2.2)
          q.normalize).backtrackProb = 1 ∧
      0 < (l.foldl (fun p u => policyUpdate cfg p u.1 u.2.1 u.2.2)
        q.normalize).exploreProb ∧
      0 < (l.foldl (fun p u => policyUpdate cfg p u.1 u.2.1 u.2.2)
        q.normalize).exploitProb ∧
      0 < (l.foldl (fun p u => policyUpdate cfg p u.1 u.2.1 u.2.2)
        q.normalize).backtrackProb by
    exact h updates
      ⟨cfg.initialExploreProb, cfg.initialExploitProb,
        cfg.initialBacktrackProb⟩
  intro l
  induction l with
  | nil => intro q; exact q.normalize_good
  | cons u t ih =>
    intro q
    have hstep : policyUpdate cfg q.normalize u.1 u.2.1 u.2.2 =
        (policyAdjust cfg q.normalize u.1 u.2.1 u.2.2).normalize := rfl
    simpa [List.foldl, hstep] using
      ih (policyAdjust cfg q.normalize u.1 u.2.1 u.2.2)

/-! ## Theorems: momentum tracker (claim C5) -/

theorem jsOrQ_some_zero (x : ℚ) : jsOrQ (some x) 0 = x := by
  by_cases h : x = 0 <;> simp [jsOrQ, h]

theorem jsOrQ_some_self (x : ℚ) : jsOrQ (some x) x = x := by
  by_cases h : x = 0 <;> simp [jsOrQ, h]

theorem relativeGap_pos (p : ℚ) (t : Option ℚ) : 0 < relativeGap p t := by
  unfold relativeGap
  cases t <;> exact lt_of_lt_of_le (by norm_num) (le_max_right _ _)

theorem pushTrim_length_le {α : Type} (l : List α) (a : α) (cap : ℕ)
    (h : l.length ≤ cap) : (pushTrim l a cap).length ≤ cap := by
  unfold pushTrim
  split
  · simp only [List.length_drop, List.length_append, List.length_singleton]
    omega
  · rename_i hle
    simp only [List.length_append, List.length_singleton] at hle ⊢
    omega

theorem pushTrim_getLast (l : List α) (a : α) (cap : ℕ) (hcap : 1 ≤ cap) :
    (pushTrim l a cap).getLast? = some a := by
  unfold pushTrim
  split
  · rename_i hgt
    simp only [List.length_append, List.length_singleton] at hgt
    have hl : 1 ≤ l.length := by omega
    rw [List.drop_append_of_le_length hl, List.getLast?_concat]
  · exact List.getLast?_concat _

/-- C5 counterexample: on the very first `update` call for an island (with
the default configuration and a program whose `combined_score` is 5), the
score does not strictly exceed `prev` (the initial score, which equals the
score itself), so the claim predicts a stagnation count of 1 and an empty
backtrack history.  The code compares against `currentBestScore = -Infinity`
instead, takes the improvement branch, resets the counter to 0 and pushes
the program onto the history. -/
theorem momentumTracker_first_update_counterexample :
    ¬ combinedScoreOrZero [("combined_score", (5:ℚ))] > (5:ℚ) ∧
    (mbbUpdate defaultPacevolveConfig mbbInitState
      ⟨"p1", [ 'x' ], none, 0, 0, [("combined_score", 5)], 3, none, 0⟩ 1
      none).iterationsSinceImprovement = 0 ∧
    (mbbUpdate defaultPacevolveConfig mbbInitState
      ⟨"p1", [ 'x' ], none, 0, 0, [("combined_score", 5)], 3, none, 0⟩ 1
      none).backtrackHistory.length = 1 := by
  refine ⟨?_, ?_, ?_⟩ <;>
    norm_num [mbbUpdate, mbbInitState, mbbInitScore, mbbScorePhase,
      mbbMomentumPhase, mbbImproves, mbbPreviousBest, relativeGap, jsOrQ,
      pushTrim, combinedScoreOrZero, alGet, defaultPacevolveConfig]

/-- C5 (amended).  `MomentumTracker.update` maintains the per-island state
as the claim describes, except that the improvement branch compares the
score against the running best score, which starts at `-Infinity` — so the
very first call always takes the improvement branch (with relative
improvement 0, since `prev` equals the score itself there).  With
`score = combined_score || 0` and `s' = mbbUpdate cfg s program iteration
target`:
* if the running best is `cb` and `score > cb`: the latest relative
  improvement is `(score - cb) / gap` with the claimed gap, the best becomes
  `score`, the stagnation counter resets to 0, and the program is pushed
  onto the history, trimmed to `backtrackDepth`;
* if the running best is `cb` and `score ≤ cb`: the latest relative
  improvement is 0 and the stagnation counter increases by 1;
* on the first call for an island the improvement branch is taken with
  relative improvement 0;
* the history never exceeds `backtrackDepth` entries;
* the momentum always becomes
  `momentumBeta * momentum + (1 - momentumBeta) * latest`. -/
theorem momentumTracker_update_spec (cfg : PACEvolveConfig)
    (s : MBBIslandState) (program : Program) (iteration : ℕ)
    (targetScore : Option ℚ) (hmbb : cfg.enableMBB = true)
    (hw : 1 ≤ cfg.momentumWindowSize) :
    (∀ cb : ℚ, s.currentBestScore = some cb →
      combinedScoreOrZero program.metrics > cb →
      (mbbUpdate cfg s program iteration targetScore).currentBestScore =
          some (combinedScoreOrZero program.metrics) ∧
      (mbbUpdate cfg s program iteration
          targetScore).iterationsSinceImprovement = 0 ∧
      (mbbUpdate cfg s program iteration targetScore).backtrackHistory =
          pushTrim s.backtrackHistory (iteration, program)
            cfg.backtrackDepth ∧
      (mbbUpdate cfg s program iteration
          targetScore).recentRelativeImprovements.getLast? =
        some ((combinedScoreOrZero program.metrics - cb) /
          relativeGap cb targetScore) ∧
      (mbbUpdate cfg s program iteration targetScore).momentum =
        cfg.momentumBeta * s.momentum + (1 - cfg.momentumBeta) *
          ((combinedScoreOrZero program.metrics - cb) /
            relativeGap cb targetScore)) ∧
    (∀ cb : ℚ, s.currentBestScore = some cb →
      ¬ combinedScoreOrZero program.metrics > cb →
      (mbbUpdate cfg s program iteration
          targetScore).iterationsSinceImprovement =
        s.iterationsSinceImprovement + 1 ∧
      (mbbUpdate cfg s program iteration targetScore).currentBestScore =
        some cb ∧
      (mbbUpdate cfg s program iteration targetScore).backtrackHistory =
        s.backtrackHistory ∧
      (mbbUpdate cfg s program iteration
          targetScore).recentRelativeImprovements.getLast? = some 0 ∧
      (mbbUpdate cfg s program iteration targetScore).momentum =
        cfg.momentumBeta * s.momentum) ∧
    (s.currentBestScore = none → s.initialScore = none →
      (mbbUpdate cfg s program iteration targetScore).currentBestScore =
          some (combinedScoreOrZero program.metrics) ∧
      (mbbUpdate cfg s program iteration
          targetScore).iterationsSinceImprovement = 0 ∧
      (mbbUpdate cfg s program iteration targetScore).backtrackHistory =
          pushTrim s.backtrackHistory (iteration, program)
            cfg.backtrackDepth ∧
      (mbbUpdate cfg s program iteration
          targetScore).recentRelativeImprovements.getLast? = some 0 ∧
      (mbbUpdate cfg s program iteration targetScore).momentum =
        cfg.momentumBeta * s.momentum) ∧
    (s.backtrackHistory.length ≤ cfg.backtrackDepth →
      (mbbUpdate cfg s program iteration
        targetScore).backtrackHistory.length ≤ cfg.backtrackDepth) := by
  have hinitCB : (mbbInitScore s
      (combinedScoreOrZero program.metrics)).currentBestScore =
      s.currentBestScore := rfl
  have hmom : (mbbInitScore s
      (combinedScoreOrZero program.metrics)).momentum = s.momentum := rfl
  refine ⟨?_, ?_, ?_, ?_⟩
  · intro cb hcb hgt
    have himp2 : mbbImproves (mbbInitScore s
        (combinedScoreOrZero program.metrics))
        (combinedScoreOrZero program.metrics) = true := by
      simp [mbbImproves, hinitCB, hcb, hgt]
    have hprev : mbbPreviousBest (mbbInitScore s
        (combinedScoreOrZero program.metrics))
        (combinedScoreOrZero program.metrics) = cb := by
      simp [mbbPreviousBest, hinitCB, hcb]
    simp only [mbbUpdate, hmbb, if_true, mbbScorePhase, himp2,
      eq_self_iff_true, if_true, mbbMomentumPhase, hprev, hmom]
    refine ⟨?_, ?_, ?_, ?_, ?_⟩ <;>
      first
        | trivial
        | rfl
        | (exact pushTrim_getLast _ _ _ hw)
        | (rw [pushTrim_getLast _ _ _ hw, jsOrQ_some_zero])
  · intro cb hcb hle
    have himp2 : mbbImproves (mbbInitScore s
        (combinedScoreOrZero program.metrics))
        (combinedScoreOrZero program.metrics) = false := by
      simp [mbbImproves, hinitCB, hcb, hle]
    simp only [mbbUpdate, hmbb, if_true, mbbScorePhase, himp2,
      Bool.false_eq_true, if_false, mbbMomentumPhase, hmom]
    refine ⟨?_, ?_, ?_, ?_, ?_⟩ <;>
      first
        | trivial
        | rfl
        | (rw [hinitCB, hcb])
        | (exact pushTrim_getLast _ _ _ hw)
        | (rw [pushTrim_getLast _ _ _ hw, jsOrQ_some_zero]; ring)
  · intro hnone hinit
    have himp2 : mbbImproves (mbbInitScore s
        (combinedScoreOrZero program.metrics))
        (combinedScoreOrZero program.metrics) = true := by
      simp [mbbImproves, hinitCB, hnone]
    have hprev : mbbPreviousBest (mbbInitScore s
        (combinedScoreOrZero program.metrics))
        (combinedScoreOrZero program.metrics) =
        combinedScoreOrZero program.metrics := by
      simp only [mbbPreviousBest, hinitCB, hnone]
      show jsOrQ (mbbInitScore s _).initialScore _ = _
      simp [mbbInitScore, hinit, jsOrQ_some_self]
    simp only [mbbUpdate, hmbb, if_true, mbbScorePhase, himp2,
      eq_self_iff_true, if_true, mbbMomentumPhase, hprev, hmom, sub_self,
      zero_div]
    refine ⟨?_, ?_, ?_, ?_, ?_⟩ <;>
      first
        | trivial
        | rfl
        | (exact pushTrim_getLast _ _ _ hw)
        | (rw [pushTrim_getLast _ _ _ hw, jsOrQ_some_zero]; ring)
  · intro hlen
    by_cases himpB : mbbImproves (mbbInitScore s
        (combinedScoreOrZero program.metrics))
        (combinedScoreOrZero program.metrics) = true
    · simp only [mbbUpdate, hmbb, if_true, mbbScorePhase, himpB,
        eq_self_iff_true, mbbMomentumPhase]
      exact pushTrim_length_le _ _ _ hlen
    · rw [Bool.not_eq_true] at himpB
      simp only [mbbUpdate, hmbb, if_true, mbbScorePhase, himpB,
        Bool.false_eq_true, if_false, mbbMomentumPhase]
      exact hlen

/-- Witness for `momentumTracker_update_spec`: a stagnating update (score 4
against running best 5) increments the stagnation counter from 3 to 4. -/
theorem momentumTracker_update_spec_witness :
    (mbbUpdate defaultPacevolveConfig ⟨[], 0, [], 3, some 5, some 5⟩
      ⟨"p2", [ 'y' ], none, 0, 0, [("combined_score", 4)], 3, none, 0⟩ 7
      none).iterationsSinceImprovement = 3 + 1 :=
  ((momentumTracker_update_spec defaultPacevolveConfig
      ⟨[], 0, [], 3, some 5, some 5⟩
      ⟨"p2", [ 'y' ], none, 0, 0, [("combined_score", 4)], 3, none, 0⟩ 7 none
      rfl (by norm_num [defaultPacevolveConfig])).2.1 5 rfl
    (by norm_num [combinedScoreOrZero, jsOrQ, alGet])).1

/-- Witness for `valueTobin_spec`: the very first observation of a dimension
lands in bin 0 and initializes min = max = value. -/
theorem valueTobin_spec_witness :
    0 ≤ (valueTobin none 5 10).1 ∧
    (valueTobin none 5 10).1 ≤ (10 : ℤ) - 1 ∧
    (valueTobin none 5 10).1 = 0 :=
  ⟨(valueTobin_spec none 5 10 (by norm_num)).1,
   (valueTobin_spec none 5 10 (by norm_num)).2.1,
   ((valueTobin_spec none 5 10 (by norm_num)).2.2.1 rfl).1⟩

/-! ## Theorems: evaluator retry loop (claim C8) -/

theorem evalGo_all_fail (maxRetries : ℕ) (programId : String)
    (msg : ℕ → String)
    (attempts : ℕ → Except String (Metrics × Option (List (String × String))))
    (useLlm : Bool) (llm : Option Metrics) (w : ℚ)
    (hfail : ∀ i, attempts i = .error (msg i)) :
    ∀ (fuel attempt : ℕ), attempt + fuel = maxRetries + 1 →
      evalGo maxRetries true programId attempts useLlm llm w attempt fuel =
        ⟨fuel,
          if programId ≠ "" then
            (List.range' attempt fuel).map
              (fun i => ArtifactWrite.failure programId (msg i)
                "evaluation" (i + 1))
          else [],
          List.replicate (fuel - 1) 1000,
          [("error", 0)]⟩ := by
  intro fuel
  induction fuel with
  | zero =>
    intro attempt _
    simp [evalGo, List.range']
  | succ n ih =>
    intro attempt hsum
    rw [evalGo, hfail attempt, ih (attempt + 1) (by omega)]
    have hsleep : (if attempt < maxRetries then [1000] else ([] : List ℕ)) ++
        List.replicate (n - 1) 1000 = List.replicate (n + 1 - 1) 1000 := by
      by_cases hn : 1 ≤ n
      · rw [if_pos (by omega)]
        have h1 : n + 1 - 1 = (n - 1) + 1 := by omega
        rw [h1, List.replicate_succ]
        rfl
      · have hn0 : n = 0 := by omega
        subst hn0
        rw [if_neg (by omega)]
        rfl
    by_cases hpid : programId = "" <;>
      simp [hpid, hsleep, List.range']

/-- C8: when every attempt throws (which includes timeouts), and artifacts
are enabled with a nonempty program id, `evaluateProgram` makes
`maxRetries + 1` attempts, records
`{ stderr: message, failureStage: 'evaluation', attempt }` (1-based attempt
number) into the pending-artifacts map keyed by the program id after each
failed attempt, sleeps 1000 ms between consecutive attempts
(`maxRetries` sleeps in total), and finally returns `{ error: 0.0 }`
instead of raising. -/
theorem evaluateProgram_all_fail_spec (maxRetries : ℕ) (programId : String)
    (msg : ℕ → String)
    (attempts : ℕ → Except String (Metrics × Option (List (String × String))))
    (useLlm : Bool) (llm : Option Metrics) (w : ℚ)
    (hfail : ∀ i, attempts i = .error (msg i)) (hpid : programId ≠ "") :
    (evaluateProgram maxRetries true programId attempts useLlm llm
        w).attemptsMade = maxRetries + 1 ∧
    (evaluateProgram maxRetries true programId attempts useLlm llm
        w).artifactWrites =
      (List.range (maxRetries + 1)).map
        (fun i => ArtifactWrite.failure programId (msg i) "evaluation"
          (i + 1)) ∧
    (evaluateProgram maxRetries true programId attempts useLlm llm
        w).sleepsMs = List.replicate maxRetries 1000 ∧
    (evaluateProgram maxRetries true programId attempts useLlm llm
        w).result = [("error", 0)] := by
  have h := evalGo_all_fail maxRetries programId msg attempts useLlm llm w
    hfail (maxRetries + 1) 0 (by omega)
  rw [evaluateProgram, h]
  refine ⟨rfl, ?_, rfl, rfl⟩
  simp [hpid, List.range_eq_range']

/-- Witness for `evaluateProgram_all_fail_spec`: with `maxRetries = 2` and
every attempt throwing `"boom"`, three attempts are made and `{ error: 0.0 }`
is returned. -/
theorem evaluateProgram_all_fail_spec_witness :
    (evaluateProgram 2 true "p" (fun _ => .error "boom") false none
        0).attemptsMade = 2 + 1 ∧
    (evaluateProgram 2 true "p" (fun _ => .error "boom") false none
        0).result = [("error", 0)] :=
  ⟨(evaluateProgram_all_fail_spec 2 "p" (fun _ => "boom")
      (fun _ => .error "boom") false none 0 (fun _ => rfl)
      (by decide)).1,
   (evaluateProgram_all_fail_spec 2 "p" (fun _ => "boom")
      (fun _ => .error "boom") false none 0 (fun _ => rfl)
      (by decide)).2.2.2⟩

/-! ## Theorems: template manager (claim C9) -/

/-- C9: the code loads the custom (user) template directory first and the
defaults directory second into the same map, and `Map.set` overwrites — so
on a name collision the *default* directory's version is stored and
returned, not the user's.  Here both directories contain `greet.txt`; the
user version is `"USER"`, the default version is `"DEFAULT"`, and
`getTemplate('greet')` returns `"DEFAULT"`. -/
theorem templateManager_collision_counterexample :
    getTemplate
        (loadTemplates (some [("greet.txt", "USER")])
          [("greet.txt", "DEFAULT")]) "greet" = "DEFAULT" ∧
      "DEFAULT" ≠ "USER" := by
  constructor
  · rfl
  · decide

/-! ## Theorems: controller run loop (claim C6) -/

/-- C6 counterexample: with `targetScore = 1` first reached after
iteration 1 (`maxIterations = 3`), the loop exits after iteration 1 — but
the `break` happens before `this.status.iteration = iteration`, so the
reported `status.iteration` is 0, not 1. -/
theorem run_targetScore_counterexample :
    (engineRun (fun i => some (if i = 0 then 0 else 1)) (some 1) 3).1 = 1 ∧
    (engineRun (fun i => some (if i = 0 then 0 else 1)) (some 1) 3).2 = 0 ∧
    (1 : ℕ) ≠ 0 := by
  refine ⟨?_, ?_, by decide⟩ <;>
    norm_num [engineRun, runLoopGo, targetReached]

/-- C6 (amended).  If the optional `targetScore` is first reached at
iteration `k` (for `1 ≤ k ≤ maxIterations`), the run loop exits after
iteration `k` without running iteration `k + 1`, and the reported status
satisfies `status.iteration = k - 1`: the loop breaks before the status
update of iteration `k`, so the status still holds the previous
iteration's value. -/
theorem run_targetScore_spec (bestAfter : ℕ → Option ℚ) (t : ℚ)
    (iterations k : ℕ) (hk1 : 1 ≤ k) (hkN : k ≤ iterations)
    (hbefore : ∀ j, 1 ≤ j → j < k →
      targetReached bestAfter (some t) j = false)
    (hreach : targetReached bestAfter (some t) k = true) :
    engineRun bestAfter (some t) iterations = (k, k - 1) := by
  suffices h : ∀ (fuel iter : ℕ), 1 ≤ iter → iter ≤ k →
      k + 1 ≤ iter + fuel →
      runLoopGo bestAfter (some t) fuel iter (iter - 1) = (k, k - 1) by
    have h0 := h iterations 1 le_rfl hk1 (by omega)
    simpa [engineRun] using h0
  intro fuel
  induction fuel with
  | zero => intro iter _ _ _; omega
  | succ n ih =>
    intro iter h1 hle hfuel
    by_cases hik : iter = k
    · subst hik
      rw [runLoopGo, if_pos hreach]
    · have hlt : iter < k := lt_of_le_of_ne hle hik
      rw [runLoopGo, if_neg (by rw [hbefore iter h1 hlt]; exact
        Bool.false_ne_true)]
      have := ih (iter + 1) (by omega) (by omega) (by omega)
      simpa using this

/-- Witness for `run_targetScore_spec`: the target 5 is first reached after
iteration 2 of 4; the loop stops after iteration 2 with
`status.iteration = 1`. -/
theorem run_targetScore_spec_witness :
    engineRun (fun i => some (if i < 2 then (0 : ℚ) else 5)) (some 5) 4 =
      (2, 1) :=
  run_targetScore_spec (fun i => some (if i < 2 then (0 : ℚ) else 5)) 5 4 2
    (by norm_num) (by norm_num)
    (by
      intro j hj1 hj2
      have hj : j = 1 := by omega
      subst hj
      norm_num [targetReached])
    (by norm_num [targetReached])

/-! ## Supporting lemmas: association lists and sets -/

theorem alGet_alSet_self {α β : Type} [DecidableEq α] (l : List (α × β))
    (k : α) (v : β) : alGet (alSet l k v) k = some v := by
  induction l with
  | nil => simp [alSet, alGet]
  | cons kv t ih =>
    by_cases h : kv.1 = k
    · simp [alSet, alGet, h]
    · simp only [alSet]
      rw [if_neg (by exact h)]
      simp only [alGet]
      rw [if_neg (by exact h)]
      exact ih

theorem alGet_alSet_ne {α β : Type} [DecidableEq α] (l : List (α × β))
    (k k' : α) (v : β) (h : k' ≠ k) :
    alGet (alSet l k v) k' = alGet l k' := by
  induction l with
  | nil => simp [alSet, alGet, Ne.symm h]
  | cons kv t ih =>
    by_cases hk : kv.1 = k
    · simp [alSet, alGet, hk, Ne.symm h]
    · by_cases hkv : kv.1 = k'
      · simp [alSet, alGet, hk, hkv, h]
      · simp [alSet, alGet, hk, hkv, ih]

theorem alDel_cons {α β : Type} [DecidableEq α] (kv : α × β)
    (t : List (α × β)) (k : α) :
    alDel (kv :: t) k = if kv.1 = k then alDel t k else kv :: alDel t k := by
  by_cases hk : kv.1 = k <;> simp [alDel, List.filter_cons, hk]

theorem alGet_alDel {α β : Type} [DecidableEq α] (l : List (α × β))
    (k k' : α) :
    alGet (alDel l k) k' = if k' = k then none else alGet l k' := by
  induction l with
  | nil => simp [alDel, alGet]
  | cons kv t ih =>
    rw [alDel_cons]
    by_cases hk : kv.1 = k
    · rw [if_pos hk, ih]
      by_cases hkk : k' = k
      · simp [hkk]
      · have hkv : ¬ kv.1 = k' := by rw [hk]; exact fun hc => hkk hc.symm
        simp [alGet, hkk, hkv]
    · rw [if_neg hk]
      simp only [alGet]
      by_cases hkv : kv.1 = k'
      · have hkk : ¬ k' = k := fun hc => hk (by rw [hkv, hc])
        simp [hkv, hkk]
      · simp [hkv, ih]

theorem alGet_mem {α β : Type} [DecidableEq α] (l : List (α × β)) (k : α)
    (v : β) (h : alGet l k = some v) : (k, v) ∈ l := by
  induction l with
  | nil => simp [alGet] at h
  | cons kv t ih =>
    rw [alGet] at h
    split at h
    · rename_i heq
      simp only [Option.some.injEq] at h
      have hkv : (k, v) = kv := by
        rw [← heq, ← h]
      rw [hkv]
      exact List.mem_cons_self _ _
    · right
      exact ih h

theorem alHas_alSet {α β : Type} [DecidableEq α] (l : List (α × β))
    (k k' : α) (v : β) (h : alHas (alSet l k v) k' = true) :
    k' = k ∨ alHas l k' = true := by
  by_cases hk : k' = k
  · exact Or.inl hk
  · right
    rw [alHas, alGet_alSet_ne l k k' v hk] at h
    exact h

theorem alGet_valueMap {α β : Type} [DecidableEq α] (g : β → β)
    (l : List (α × β)) (x : α) :
    alGet (l.map (fun kv => (kv.1, g kv.2))) x =
      Option.map g (alGet l x) := by
  induction l with
  | nil => rfl
  | cons kv t ih =>
    by_cases h : kv.1 = x
    · simp [alGet, h]
    · simp [alGet, h, ih]

theorem alGet_valueMap_isSome {α β : Type} [DecidableEq α] (g : β → β)
    (l : List (α × β)) (x : α) :
    (alGet (l.map (fun kv => (kv.1, g kv.2))) x).isSome =
      (alGet l x).isSome := by
  rw [alGet_valueMap]
  cases alGet l x <;> rfl

theorem alHas_valueMap {α β : Type} [DecidableEq α] (g : β → β)
    (l : List (α × β)) (x : α) :
    alHas (l.map (fun kv => (kv.1, g kv.2))) x = alHas l x :=
  alGet_valueMap_isSome g l x

theorem alHas_alDel {α β : Type} [DecidableEq α] (l : List (α × β))
    (k k' : α) (h : alHas (alDel l k) k' = true) : alHas l k' = true := by
  rw [alHas, alGet_alDel] at h
  split at h
  · simp at h
  · exact h

theorem mem_setAdd {α : Type} [DecidableEq α] (l : List α) (a x : α) :
    x ∈ setAdd l a ↔ x ∈ l ∨ x = a := by
  unfold setAdd
  split
  · rename_i hmem
    constructor
    · exact Or.inl
    · rintro (h | rfl)
      · exact h
      · exact hmem
  · simp

theorem mem_setDel {α : Type} [DecidableEq α] (l : List α) (a x : α) :
    x ∈ setDel l a ↔ x ∈ l ∧ x ≠ a := by
  simp [setDel]

theorem getD_set_self {α : Type} (l : List α) (i : ℕ) (x d : α)
    (h : i < l.length) : (l.set i x).getD i d = x := by
  induction l generalizing i with
  | nil => simp at h
  | cons a t ih =>
    cases i with
    | zero => rfl
    | succ n =>
      simp only [List.set, List.getD_cons_succ]
      exact ih n (by simpa using h)

theorem getD_set_ne {α : Type} (l : List α) (i j : ℕ) (x d : α)
    (h : j ≠ i) : (l.set i x).getD j d = l.getD j d := by
  induction l generalizing i j with
  | nil => simp
  | cons a t ih =>
    cases i with
    | zero =>
      cases j with
      | zero => exact absurd rfl h
      | succ m => rfl
    | succ n =>
      cases j with
      | zero => rfl
      | succ m =>
        simp only [List.set, List.getD_cons_succ]
        exact ih n m (fun hc => h (by omega))

theorem getD_out_of_range {α : Type} (l : List α) (j : ℕ) (d : α)
    (h : l.length ≤ j) : l.getD j d = d := by
  rw [List.getD_eq_getElem?_getD, List.getElem?_eq_none (by omega)]
  rfl

theorem mem_keys_alSet {α β : Type} [DecidableEq α] (l : List (α × β))
    (k x : α) (v : β) (h : x ∈ (alSet l k v).map Prod.fst) :
    x = k ∨ x ∈ l.map Prod.fst := by
  induction l with
  | nil => simpa [alSet] using h
  | cons kv t ih =>
    by_cases hk : kv.1 = k
    · simp only [alSet, if_pos hk, List.map_cons, List.mem_cons] at h
      rcases h with h | h
      · exact Or.inl h
      · exact Or.inr (List.mem_cons_of_mem _ h)
    · simp only [alSet, if_neg hk, List.map_cons, List.mem_cons] at h
      rcases h with h | h
      · exact Or.inr (by simp [h])
      · rcases ih h with h' | h'
        · exact Or.inl h'
        · exact Or.inr (List.mem_cons_of_mem _ h')

theorem mem_alSet {α β : Type} [DecidableEq α] (l : List (α × β))
    (k : α) (v : β) (kv : α × β) (h : kv ∈ alSet l k v) :
    kv = (k, v) ∨ kv ∈ l := by
  induction l with
  | nil => simpa [alSet] using h
  | cons kv' t ih =>
    by_cases hk : kv'.1 = k
    · simp only [alSet, if_pos hk, List.mem_cons] at h
      rcases h with h | h
      · exact Or.inl h
      · exact Or.inr (List.mem_cons_of_mem _ h)
    · simp only [alSet, if_neg hk, List.mem_cons] at h
      rcases h with h | h
      · exact Or.inr (by simp [h])
      · rcases ih h with h' | h'
        · exact Or.inl h'
        · exact Or.inr (List.mem_cons_of_mem _ h')

theorem getD_set_oob {α : Type} (l : List α) (i : ℕ) (x d : α)
    (h : l.length ≤ i) : (l.set i x).getD i d = d := by
  rw [getD_out_of_range]
  rw [List.length_set]
  exact h

theorem alSet_keysNodup {α β : Type} [DecidableEq α] (l : List (α × β))
    (k : α) (v : β) (h : (l.map Prod.fst).Nodup) :
    ((alSet l k v).map Prod.fst).Nodup := by
  induction l with
  | nil => simp [alSet]
  | cons kv t ih =>
    simp only [List.map_cons, List.nodup_cons] at h
    by_cases hk : kv.1 = k
    · simp only [alSet, if_pos hk, List.map_cons, List.nodup_cons]
      exact ⟨by rw [← hk]; exact h.1, h.2⟩
    · simp only [alSet, if_neg hk, List.map_cons, List.nodup_cons]
      refine ⟨?_, ih h.2⟩
      intro hmem
      rcases mem_keys_alSet t k kv.1 v hmem with h' | h'
      · exact hk h'
      · exact h.1 h'

/-! ## Supporting lemmas: the phases of `ProgramDatabase.add` -/

theorem addP_id (program : Program) (iteration : Option ℕ) :
    (addP program iteration).id = program.id := by
  cases iteration <;> rfl

theorem addP_metrics (program : Program) (iteration : Option ℕ) :
    (addP program iteration).metrics = program.metrics := by
  cases iteration <;> rfl

theorem addStatsState_islandFeatureMaps (cfg : DatabaseConfig)
    (s : DBState) (program : Program) (iteration : Option ℕ) :
    (addStatsState cfg s program iteration).islandFeatureMaps =
      s.islandFeatureMaps := rfl

theorem addStatsState_islands (cfg : DatabaseConfig) (s : DBState)
    (program : Program) (iteration : Option ℕ) :
    (addStatsState cfg s program iteration).islands = s.islands := rfl

theorem addStatsState_archive (cfg : DatabaseConfig) (s : DBState)
    (program : Program) (iteration : Option ℕ) :
    (addStatsState cfg s program iteration).archive = s.archive := rfl

theorem addStatsState_programs (cfg : DatabaseConfig) (s : DBState)
    (program : Program) (iteration : Option ℕ) :
    (addStatsState cfg s program iteration).programs =
      alSet s.programs (addP program iteration).id
        (addP program iteration) := rfl

theorem cellReplace_programs (cfg : DatabaseConfig) (s : DBState)
    (p : Program) (k : ℕ) (key : List ℤ) :
    (cellReplace cfg s p k key).programs = s.programs := by
  unfold cellReplace
  split
  · split <;> rfl
  · rfl

theorem cellReplace_islands_length (cfg : DatabaseConfig) (s : DBState)
    (p : Program) (k : ℕ) (key : List ℤ) :
    (cellReplace cfg s p k key).islands.length = s.islands.length := by
  unfold cellReplace
  split
  · split
    · simp [List.length_set]
    · rfl
  · rfl

theorem cellReplace_cellmaps_length (cfg : DatabaseConfig) (s : DBState)
    (p : Program) (k : ℕ) (key : List ℤ) :
    (cellReplace cfg s p k key).islandFeatureMaps.length =
      s.islandFeatureMaps.length := by
  unfold cellReplace
  split
  · split <;> simp [List.length_set]
  · rfl

/-- Where a cell occupant of the state after the replacement block can come
from: it is either the incoming program freshly written at the computed
cell, or an occupant already present. -/
theorem cellReplace_cellGet_cases (cfg : DatabaseConfig) (s : DBState)
    (p : Program) (k : ℕ) (key : List ℤ) (j : ℕ) (key' : List ℤ)
    (id : String)
    (h : alGet ((cellReplace cfg s p k key).islandFeatureMaps.getD j [])
      key' = some id) :
    (j = k ∧ key' = key ∧ id = p.id) ∨
      alGet (s.islandFeatureMaps.getD j []) key' = some id := by
  unfold cellReplace at h
  split at h
  case isFalse => exact Or.inr h
  case isTrue hrep =>
    have hmain : ∀ fmset : List (List ℤ × String),
        fmset = alSet (s.islandFeatureMaps.getD k []) key p.id →
        alGet ((s.islandFeatureMaps.set k fmset).getD j []) key' =
          some id →
        (j = k ∧ key' = key ∧ id = p.id) ∨
          alGet (s.islandFeatureMaps.getD j []) key' = some id := by
      intro fmset hfm h'
      by_cases hj : j = k
      · subst hj
        by_cases hlen : j < s.islandFeatureMaps.length
        · rw [getD_set_self _ _ _ _ hlen, hfm] at h'
          by_cases hkey : key' = key
          · subst hkey
            rw [alGet_alSet_self] at h'
            exact Or.inl ⟨rfl, rfl, (Option.some.injEq _ _ ▸ h').symm⟩
          · rw [alGet_alSet_ne _ _ _ _ hkey] at h'
            exact Or.inr h'
        · rw [getD_set_oob _ _ _ _ (by omega)] at h'
          simp [alGet] at h'
      · rw [getD_set_ne _ _ _ _ _ hj] at h'
        exact Or.inr h'
    split at h
    · exact hmain _ rfl h
    · exact hmain _ rfl h

/-- After a successful replacement the computed cell holds the incoming
program's id. -/
theorem cellReplace_cellGet_self (cfg : DatabaseConfig) (s : DBState)
    (p : Program) (k : ℕ) (key : List ℤ)
    (hk : k < s.islandFeatureMaps.length)
    (hrep : shouldReplaceCell cfg s p k key = true) :
    alGet ((cellReplace cfg s p k key).islandFeatureMaps.getD k []) key =
      some p.id := by
  unfold cellReplace
  rw [if_pos hrep]
  split <;>
    rw [getD_set_self _ _ _ _ hk, alGet_alSet_self]

/-- If the replacement block did not touch the cell maps at a position, the
occupant is unchanged; stated as: when no replacement happens the state is
unchanged. -/
theorem cellReplace_of_not_replace (cfg : DatabaseConfig) (s : DBState)
    (p : Program) (k : ℕ) (key : List ℤ)
    (hrep : shouldReplaceCell cfg s p k key = false) :
    cellReplace cfg s p k key = s := by
  unfold cellReplace
  rw [hrep]
  simp

/-- The resident sets after the replacement block: either unchanged, or the
computed island's set loses exactly the evicted occupant. -/
theorem cellReplace_islands_cases (cfg : DatabaseConfig) (s : DBState)
    (p : Program) (k : ℕ) (key : List ℤ) :
    (cellReplace cfg s p k key).islands = s.islands ∨
      ∃ ex, alGet (s.islandFeatureMaps.getD k []) key = some ex ∧
        (cellReplace cfg s p k key).islands =
          s.islands.set k (setDel (s.islands.getD k []) ex) := by
  unfold cellReplace
  split
  · split
    · rename_i ex hex
      exact Or.inr ⟨ex, hex, rfl⟩
    · exact Or.inl rfl
  · exact Or.inl rfl

theorem cellReplace_archive_sub (cfg : DatabaseConfig) (s : DBState)
    (p : Program) (k : ℕ) (key : List ℤ) (x : String)
    (h : x ∈ (cellReplace cfg s p k key).archive) :
    x = p.id ∨ x ∈ s.archive := by
  unfold cellReplace at h
  split at h
  · split at h
    · simp only at h
      split at h
      · rcases (mem_setAdd _ _ _).mp h with h' | h'
        · exact Or.inr ((mem_setDel _ _ _).mp h').1
        · exact Or.inl h'
      · exact Or.inr h
    · exact Or.inr h
  · exact Or.inr h

theorem islandInsert_cellmaps (s : DBState) (p : Program) (k : ℕ) :
    (islandInsert s p k).islandFeatureMaps = s.islandFeatureMaps := rfl

theorem islandInsert_archive (s : DBState) (p : Program) (k : ℕ) :
    (islandInsert s p k).archive = s.archive := rfl

theorem updateArchive_programs (cfg : DatabaseConfig) (s : DBState)
    (p : Program) : (updateArchive cfg s p).programs = s.programs := by
  unfold updateArchive
  split
  · rfl
  · split
    · split <;> rfl
    · rfl

theorem updateArchive_islands (cfg : DatabaseConfig) (s : DBState)
    (p : Program) : (updateArchive cfg s p).islands = s.islands := by
  unfold updateArchive
  split
  · rfl
  · split
    · split <;> rfl
    · rfl

theorem updateArchive_cellmaps (cfg : DatabaseConfig) (s : DBState)
    (p : Program) :
    (updateArchive cfg s p).islandFeatureMaps = s.islandFeatureMaps := by
  unfold updateArchive
  split
  · rfl
  · split
    · split <;> rfl
    · rfl

theorem updateArchive_archive_sub (cfg : DatabaseConfig) (s : DBState)
    (p : Program) (x : String)
    (h : x ∈ (updateArchive cfg s p).archive) :
    x = p.id ∨ x ∈ s.archive := by
  unfold updateArchive at h
  split at h
  · rcases (mem_setAdd _ _ _).mp h with h' | h'
    · exact Or.inr h'
    · exact Or.inl h'
  · split at h
    · split at h
      · rcases (mem_setAdd _ _ _).mp h with h' | h'
        · exact Or.inr ((mem_setDel _ _ _).mp h').1
        · exact Or.inl h'
      · exact Or.inr h
    · exact Or.inr h

theorem updateBest_relevant (cfg : DatabaseConfig) (s : DBState)
    (p : Program) :
    (updateBest cfg s p).programs = s.programs ∧
    (updateBest cfg s p).islands = s.islands ∧
    (updateBest cfg s p).islandFeatureMaps = s.islandFeatureMaps ∧
    (updateBest cfg s p).archive = s.archive :=
  ⟨rfl, rfl, rfl, rfl⟩

theorem updateIslandBest_relevant (cfg : DatabaseConfig) (s : DBState)
    (p : Program) (k : ℕ) :
    (updateIslandBest cfg s p k).programs = s.programs ∧
    (updateIslandBest cfg s p k).islands = s.islands ∧
    (updateIslandBest cfg s p k).islandFeatureMaps =
      s.islandFeatureMaps ∧
    (updateIslandBest cfg s p k).archive = s.archive :=
  ⟨rfl, rfl, rfl, rfl⟩

/-! ## Supporting lemmas: population-limit enforcement -/

theorem removeProgram_cellmaps (s : DBState) (q : Program) :
    (removeProgram s q).islandFeatureMaps = s.islandFeatureMaps := rfl

theorem removeProgram_archive (s : DBState) (q : Program) :
    (removeProgram s q).archive = setDel s.archive q.id := rfl

theorem removeProgram_live (s : DBState) (q : Program) (x : String)
    (h : (alGet (removeProgram s q).programs x).isSome = true) :
    x ≠ q.id ∧ (alGet s.programs x).isSome = true := by
  have h' : alGet (alDel s.programs q.id) x =
      if x = q.id then none else alGet s.programs x :=
    alGet_alDel s.programs q.id x
  rw [show (removeProgram s q).programs = alDel s.programs q.id from rfl,
    h'] at h
  split at h
  · simp at h
  · rename_i hne
    exact ⟨hne, h⟩

theorem removeProgram_resident_of (s : DBState) (q : Program) (x : String)
    (j : ℕ) (hx : x ∈ s.islands.getD j []) (hne : x ≠ q.id) :
    x ∈ (removeProgram s q).islands.getD j [] := by
  show x ∈ (match q.island with
    | some i => s.islands.set i (setDel (s.islands.getD i []) q.id)
    | none => s.islands).getD j []
  match q.island with
  | none => exact hx
  | some i =>
    by_cases hj : j = i
    · subst hj
      by_cases hlen : j < s.islands.length
      · rw [getD_set_self _ _ _ _ hlen]
        exact (mem_setDel _ _ _).mpr ⟨hx, hne⟩
      · rw [getD_out_of_range _ _ _ (by omega)] at hx
        cases hx
    · rw [getD_set_ne _ _ _ _ _ hj]
      exact hx

theorem removeProgram_islands_sub (s : DBState) (q : Program) (x : String)
    (j : ℕ) (h : x ∈ (removeProgram s q).islands.getD j []) :
    ∃ j', x ∈ s.islands.getD j' [] := by
  revert h
  show x ∈ (match q.island with
    | some i => s.islands.set i (setDel (s.islands.getD i []) q.id)
    | none => s.islands).getD j [] → _
  match q.island with
  | none => exact fun h => ⟨j, h⟩
  | some i =>
    intro h
    by_cases hj : j = i
    · subst hj
      by_cases hlen : j < s.islands.length
      · rw [getD_set_self _ _ _ _ hlen] at h
        exact ⟨j, ((mem_setDel _ _ _).mp h).1⟩
      · rw [getD_set_oob _ _ _ _ (by omega)] at h
        cases h
    · rw [getD_set_ne _ _ _ _ _ hj] at h
      exact ⟨j, h⟩

theorem removeProgram_islands_length (s : DBState) (q : Program) :
    (removeProgram s q).islands.length = s.islands.length := by
  show (match q.island with
    | some i => s.islands.set i (setDel (s.islands.getD i []) q.id)
    | none => s.islands).length = s.islands.length
  match q.island with
  | none => rfl
  | some i => exact List.length_set ..

theorem foldl_remove_cellmaps (L : List Program) (s : DBState) :
    (L.foldl removeProgram s).islandFeatureMaps = s.islandFeatureMaps := by
  induction L generalizing s with
  | nil => rfl
  | cons q T ih => rw [List.foldl_cons, ih, removeProgram_cellmaps]

theorem foldl_remove_islands_length (L : List Program) (s : DBState) :
    (L.foldl removeProgram s).islands.length = s.islands.length := by
  induction L generalizing s with
  | nil => rfl
  | cons q T ih => rw [List.foldl_cons, ih, removeProgram_islands_length]

/-- An id that is still live after population-limit removals was live
before, and its island residency is preserved. -/
theorem foldl_remove_live_resident (L : List Program) (s : DBState)
    (x : String) (j : ℕ)
    (h : (alGet (L.foldl removeProgram s).programs x).isSome = true) :
    (alGet s.programs x).isSome = true ∧
      (x ∈ s.islands.getD j [] →
        x ∈ (L.foldl removeProgram s).islands.getD j []) := by
  induction L generalizing s with
  | nil => exact ⟨h, fun hx => hx⟩
  | cons q T ih =>
    rw [List.foldl_cons] at h ⊢
    obtain ⟨hlive, hres⟩ := ih (removeProgram s q) h
    obtain ⟨hne, hlive0⟩ := removeProgram_live s q x hlive
    exact ⟨hlive0, fun hx =>
      hres (removeProgram_resident_of s q x j hx hne)⟩

theorem foldl_remove_programs_sub (L : List Program) (s : DBState)
    (x : String)
    (h : alHas (L.foldl removeProgram s).programs x = true) :
    alHas s.programs x = true := by
  induction L generalizing s with
  | nil => exact h
  | cons q T ih =>
    rw [List.foldl_cons] at h
    exact alHas_alDel _ _ _ (ih (removeProgram s q) h)

theorem foldl_remove_islands_sub (L : List Program) (s : DBState)
    (x : String) (j : ℕ)
    (h : x ∈ (L.foldl removeProgram s).islands.getD j []) :
    ∃ j', x ∈ s.islands.getD j' [] := by
  induction L generalizing s j with
  | nil => exact ⟨j, h⟩
  | cons q T ih =>
    rw [List.foldl_cons] at h
    obtain ⟨j', hj'⟩ := ih (removeProgram s q) j h
    exact removeProgram_islands_sub s q x j' hj'

theorem foldl_remove_archive_sub (L : List Program) (s : DBState)
    (x : String) (h : x ∈ (L.foldl removeProgram s).archive) :
    x ∈ s.archive := by
  induction L generalizing s with
  | nil => exact h
  | cons q T ih =>
    rw [List.foldl_cons] at h
    have := ih (removeProgram s q) h
    rw [removeProgram_archive] at this
    exact ((mem_setDel _ _ _).mp this).1

theorem enforce_cellmaps (cfg : DatabaseConfig) (s : DBState)
    (excludeId : String) :
    (enforcePopulationLimit cfg s excludeId).islandFeatureMaps =
      s.islandFeatureMaps := by
  unfold enforcePopulationLimit
  split
  · rfl
  · exact foldl_remove_cellmaps _ _

theorem enforce_islands_length (cfg : DatabaseConfig) (s : DBState)
    (excludeId : String) :
    (enforcePopulationLimit cfg s excludeId).islands.length =
      s.islands.length := by
  unfold enforcePopulationLimit
  split
  · rfl
  · exact foldl_remove_islands_length _ _

theorem enforce_live_resident (cfg : DatabaseConfig) (s : DBState)
    (excludeId : String) (x : String) (j : ℕ)
    (h : (alGet (enforcePopulationLimit cfg s excludeId).programs
      x).isSome = true) :
    (alGet s.programs x).isSome = true ∧
      (x ∈ s.islands.getD j [] →
        x ∈ (enforcePopulationLimit cfg s excludeId).islands.getD j []) := by
  unfold enforcePopulationLimit at h ⊢
  split at h
  · rename_i hle
    rw [if_pos hle]
    exact ⟨h, fun hx => hx⟩
  · rename_i hgt
    rw [if_neg hgt]
    exact foldl_remove_live_resident _ s x j h

theorem enforce_programs_sub (cfg : DatabaseConfig) (s : DBState)
    (excludeId x : String)
    (h : alHas (enforcePopulationLimit cfg s excludeId).programs x =
      true) : alHas s.programs x = true := by
  unfold enforcePopulationLimit at h
  split at h
  · exact h
  · exact foldl_remove_programs_sub _ s x h

theorem enforce_islands_sub (cfg : DatabaseConfig) (s : DBState)
    (excludeId x : String) (j : ℕ)
    (h : x ∈ (enforcePopulationLimit cfg s excludeId).islands.getD j []) :
    ∃ j', x ∈ s.islands.getD j' [] := by
  unfold enforcePopulationLimit at h
  split at h
  · exact ⟨j, h⟩
  · exact foldl_remove_islands_sub _ s x j h

theorem enforce_archive_sub (cfg : DatabaseConfig) (s : DBState)
    (excludeId x : String)
    (h : x ∈ (enforcePopulationLimit cfg s excludeId).archive) :
    x ∈ s.archive := by
  unfold enforcePopulationLimit at h
  split at h
  · exact h
  · exact foldl_remove_archive_sub _ s x h

/-! ## Supporting lemmas: the MAP-Elites cell invariant (claim C1) -/

theorem getD_mem {α : Type} (l : List α) (j : ℕ) (d : α)
    (h : j < l.length) : l.getD j d ∈ l := by
  rw [List.getD_eq_getElem l d h]
  exact List.getElem_mem ..

theorem occupant_lt_length {κ ν : Type} [DecidableEq κ]
    (L : List (List (κ × ν))) (j : ℕ) (key : κ) (v : ν)
    (h : alGet (L.getD j []) key = some v) : j < L.length := by
  by_contra hge
  rw [getD_out_of_range _ _ _ (by omega)] at h
  simp [alGet] at h

/-- The combined case analysis of the replacement block: either it leaves
the state unchanged, or it writes the incoming id into the computed cell
(and possibly evicts the previous occupant from the resident set and swaps
the archive). -/
theorem cellReplace_cases (cfg : DatabaseConfig) (s : DBState)
    (p : Program) (k : ℕ) (key : List ℤ) :
    cellReplace cfg s p k key = s ∨
      ((cellReplace cfg s p k key).programs = s.programs ∧
        (cellReplace cfg s p k key).islandFeatureMaps =
          s.islandFeatureMaps.set k
            (alSet (s.islandFeatureMaps.getD k []) key p.id) ∧
        ((cellReplace cfg s p k key).islands = s.islands ∨
          ∃ ex, alGet (s.islandFeatureMaps.getD k []) key = some ex ∧
            (cellReplace cfg s p k key).islands =
              s.islands.set k (setDel (s.islands.getD k []) ex))) := by
  unfold cellReplace
  split
  · split
    · rename_i ex hex
      exact Or.inr ⟨rfl, rfl, Or.inr ⟨ex, hex, rfl⟩⟩
    · exact Or.inr ⟨rfl, rfl, Or.inl rfl⟩
  · exact Or.inl rfl

/-- Freshness unpacked: a fresh id is not a program key, not resident on
any island, not a cell occupant, and not in the archive. -/
theorem idOccursB_false_elim (s : DBState) (x : String)
    (h : idOccursB s x = false) :
    alHas s.programs x = false ∧ (∀ j, x ∉ s.islands.getD j []) ∧
      (∀ j key, alGet (s.islandFeatureMaps.getD j []) key ≠ some x) ∧
      x ∉ s.archive := by
  rw [idOccursB] at h
  simp only [Bool.or_eq_false_iff] at h
  obtain ⟨⟨⟨hp, hi⟩, hc⟩, ha⟩ := h
  refine ⟨hp, ?_, ?_, ?_⟩
  · intro j hj
    have hjlen : j < s.islands.length := by
      by_contra hge
      rw [getD_out_of_range _ _ _ (by omega)] at hj
      cases hj
    have hmem := getD_mem s.islands j [] hjlen
    rw [List.any_eq_false] at hi
    exact hi _ hmem (List.any_eq_true.mpr ⟨x, hj, by simp⟩)
  · intro j key hkey
    have hjlen := occupant_lt_length s.islandFeatureMaps j key x hkey
    have hmem := getD_mem s.islandFeatureMaps j [] hjlen
    have hentry := alGet_mem _ _ _ hkey
    rw [List.any_eq_false] at hc
    exact hc _ hmem (List.any_eq_true.mpr ⟨(key, x), hentry, by simp⟩)
  · intro hx
    rw [List.any_eq_false] at ha
    have := ha _ hx
    simp at this

/-- The heart of the amended C1: one `add` call (including its
population-limit enforcement) preserves the cell invariant, provided the
incoming program id is fresh. -/
theorem add_preserves_cellInvariant (cfg : DatabaseConfig) (s : DBState)
    (p : Program) (it ti : Option ℕ)
    (hfresh : idOccursB s p.id = false)
    (hinv : CellInvariant s) :
    CellInvariant (add cfg s p it ti) := by
  obtain ⟨hlen, hnodup, huniq, hres⟩ := hinv
  obtain ⟨hfP, hfI, hfC, hfA⟩ := idOccursB_false_elim s p.id hfresh
  set p1 := addP p it with hp1
  set s1 := addStatsState cfg s p it with hs1
  set k := addIsland cfg s p it ti with hkdef
  set key := (addCoords cfg s p it).1 with hkeydef
  set s2 := cellReplace cfg s1 p1 k key with hs2
  set s3 := islandInsert s2 p1 k with hs3
  set s4 := updateArchive cfg s3 p1 with hs4
  set s5 := enforcePopulationLimit cfg s4 p.id with hs5
  have hp1id : p1.id = p.id := addP_id p it
  have hadd : add cfg s p it ti =
      updateIslandBest cfg (updateBest cfg s5 p1) p1 k := rfl
  -- the final state's relevant components coincide with s5's
  have hFP : (add cfg s p it ti).programs = s5.programs := by
    rw [hadd]; rfl
  have hFI : (add cfg s p it ti).islands = s5.islands := by
    rw [hadd]; rfl
  have hFC : (add cfg s p it ti).islandFeatureMaps =
      s5.islandFeatureMaps := by
    rw [hadd]; rfl
  -- phase-level component facts
  have h1C : s1.islandFeatureMaps = s.islandFeatureMaps := rfl
  have h1I : s1.islands = s.islands := rfl
  have h1P : s1.programs = alSet s.programs p.id p1 := by
    rw [hs1, addStatsState_programs, hp1id]
  have h3C : s3.islandFeatureMaps = s2.islandFeatureMaps := rfl
  have h3I : s3.islands =
      s2.islands.set k (setAdd (s2.islands.getD k []) p1.id) := rfl
  have h3P : s3.programs = s2.programs.map
      (fun kv => (kv.1, islandTag k p1.metaId kv.2)) := rfl
  have h4C : s4.islandFeatureMaps = s3.islandFeatureMaps :=
    updateArchive_cellmaps cfg s3 p1
  have h4I : s4.islands = s3.islands := updateArchive_islands cfg s3 p1
  have h4P : s4.programs = s3.programs := updateArchive_programs cfg s3 p1
  have h5C : s5.islandFeatureMaps = s4.islandFeatureMaps :=
    enforce_cellmaps cfg s4 p.id
  -- the final cell maps are those of s2
  have hC2 : (add cfg s p it ti).islandFeatureMaps =
      s2.islandFeatureMaps := by
    rw [hFC, h5C, h4C, h3C]
  rcases cellReplace_cases cfg s1 p1 k key with hrep | ⟨h2P, h2C, h2Icases⟩
  -- ── Case 1: the replacement block left the state unchanged ──
  · rw [← hs2] at hrep
    have h2C : s2.islandFeatureMaps = s.islandFeatureMaps := by
      rw [hrep]
      exact h1C
    have h2I : s2.islands = s.islands := by
      rw [hrep]
      exact h1I
    have h2P : s2.programs = alSet s.programs p.id p1 := by
      rw [hrep]
      exact h1P
    refine ⟨?_, ?_, ?_, ?_⟩
    · -- lengths
      rw [hFC, hFI, h5C, h4C, h3C, h2C, enforce_islands_length,
        h4I, h3I, List.length_set, h2I]
      exact hlen
    · intro fm hfm
      rw [hC2, h2C] at hfm
      exact hnodup fm hfm
    · intro j j' key₁ key₂ id h₁ h₂
      rw [hC2, h2C] at h₁ h₂
      exact huniq j j' key₁ key₂ id h₁ h₂
    · intro j key₂ id hcell hlive
      rw [hC2, h2C] at hcell
      rw [hFP] at hlive
      -- id is live in s5, hence live in s4 = s3, and residency transfers
      obtain ⟨hlive4, htrans⟩ := enforce_live_resident cfg s4 p.id id j
        hlive
      rw [hFI]
      apply htrans
      rw [h4I, h3I]
      -- id is resident on island j of s (by the old invariant)
      have hid_ne : id ≠ p.id := fun hc => hfC j key₂ (hc ▸ hcell)
      have hlive_s : (alGet s.programs id).isSome = true := by
        rw [h4P, h3P,
          alGet_valueMap_isSome (islandTag k p1.metaId)] at hlive4
        rw [h2P, alGet_alSet_ne _ _ _ _ hid_ne] at hlive4
        exact hlive4
      have hmem := hres j key₂ id hcell hlive_s
      by_cases hj : j = k
      · rw [hj] at hcell hmem ⊢
        have hjlen : k < s2.islands.length := by
          rw [h2I, ← hlen]
          exact occupant_lt_length _ _ _ _ hcell
        rw [getD_set_self _ _ _ _ hjlen, h2I]
        exact (mem_setAdd _ _ _).mpr (Or.inl hmem)
      · rw [getD_set_ne _ _ _ _ _ hj, h2I]
        exact hmem
  -- ── Case 2: the incoming program was written into the cell ──
  · rw [← hs2] at h2P h2C h2Icases
    rw [h1C] at h2C h2Icases
    rw [h1I] at h2Icases
    rw [h1P] at h2P
    have hilen : s2.islands.length = s.islands.length := by
      rcases h2Icases with h | ⟨ex, _, h⟩
      · rw [h]
      · rw [h, List.length_set]
    -- where an occupant of the updated cell maps can come from
    have hcase : ∀ (j₀ : ℕ) (key₀ : List ℤ) (id₀ : String),
        alGet ((s.islandFeatureMaps.set k
          (alSet (s.islandFeatureMaps.getD k []) key p1.id)).getD j₀ [])
          key₀ = some id₀ →
        (j₀ = k ∧ key₀ = key ∧ id₀ = p1.id) ∨
          (alGet (s.islandFeatureMaps.getD j₀ []) key₀ = some id₀ ∧
            id₀ ≠ p.id ∧ (j₀ ≠ k ∨ key₀ ≠ key)) := by
      intro j₀ key₀ id₀ h₀
      by_cases hj : j₀ = k
      · by_cases hklen : k < s.islandFeatureMaps.length
        · rw [hj, getD_set_self _ _ _ _ hklen] at h₀
          by_cases hkey : key₀ = key
          · rw [hkey, alGet_alSet_self] at h₀
            exact Or.inl ⟨hj, hkey, by
              injection h₀ with h₀; exact h₀.symm⟩
          · rw [alGet_alSet_ne _ _ _ _ hkey] at h₀
            have hold : alGet (s.islandFeatureMaps.getD j₀ []) key₀ =
                some id₀ := by rw [hj]; exact h₀
            exact Or.inr ⟨hold, fun hc => hfC j₀ key₀ (hc ▸ hold),
              Or.inr hkey⟩
        · rw [hj, getD_set_oob _ _ _ _ (by omega)] at h₀
          simp [alGet] at h₀
      · rw [getD_set_ne _ _ _ _ _ hj] at h₀
        exact Or.inr ⟨h₀, fun hc => hfC j₀ key₀ (hc ▸ h₀), Or.inl hj⟩
    refine ⟨?_, ?_, ?_, ?_⟩
    · -- lengths
      rw [hFC, hFI, h5C, h4C, h3C, h2C, enforce_islands_length, h4I, h3I,
        List.length_set, List.length_set, hilen]
      exact hlen
    · intro fm hfm
      rw [hC2, h2C] at hfm
      rcases List.mem_or_eq_of_mem_set hfm with h | h
      · exact hnodup fm h
      · subst h
        apply alSet_keysNodup
        by_cases hklen : k < s.islandFeatureMaps.length
        · exact hnodup _ (getD_mem _ _ _ hklen)
        · rw [getD_out_of_range _ _ _ (by omega)]
          exact List.nodup_nil
    · intro j j' key₁ key₂ id h₁ h₂
      rw [hC2, h2C] at h₁ h₂
      rcases hcase j key₁ id h₁ with ⟨hj, hk1, hid⟩ | ⟨hold₁, hne₁, _⟩ <;>
        rcases hcase j' key₂ id h₂ with ⟨hj', hk2, hid'⟩ | ⟨hold₂, hne₂, _⟩
      · exact ⟨hj.trans hj'.symm, hk1.trans hk2.symm⟩
      · exact absurd (hp1id ▸ hid) hne₂
      · exact absurd (hp1id ▸ hid') hne₁
      · exact huniq j j' key₁ key₂ id hold₁ hold₂
    · intro j key₂ id hcell hlive
      rw [hC2, h2C] at hcell
      rw [hFP] at hlive
      obtain ⟨hlive4, htrans⟩ := enforce_live_resident cfg s4 p.id id j
        hlive
      rw [hFI]
      apply htrans
      rw [h4I, h3I]
      have hjlen : j < s.islandFeatureMaps.length := by
        have := occupant_lt_length _ j key₂ id hcell
        rwa [List.length_set] at this
      have hjlen2 : j < s2.islands.length := by
        rw [hilen, ← hlen]
        exact hjlen
      rcases hcase j key₂ id hcell with ⟨hj, hkey, hid⟩ |
        ⟨hold, hne, hpos⟩
      · -- the occupant is the incoming program, freshly added to the
        -- island's resident set
        rw [hj] at hjlen2 ⊢
        rw [getD_set_self _ _ _ _ hjlen2]
        exact (mem_setAdd _ _ _).mpr (Or.inr hid)
      · -- an old occupant: it was resident before (old invariant) and
        -- survives the possible eviction of the replaced occupant
        have hlive_s : (alGet s.programs id).isSome = true := by
          rw [h4P, h3P,
            alGet_valueMap_isSome (islandTag k p1.metaId)] at hlive4
          rw [h2P, alGet_alSet_ne _ _ _ _ hne] at hlive4
          exact hlive4
        have hmem := hres j key₂ id hold hlive_s
        by_cases hj : j = k
        · rw [hj] at hjlen2 hmem hold ⊢
          rw [getD_set_self _ _ _ _ hjlen2]
          refine (mem_setAdd _ _ _).mpr (Or.inl ?_)
          rcases h2Icases with h | ⟨ex, hex, h⟩
          · rw [h]
            exact hmem
          · have hslen : k < s.islands.length := hilen ▸ hjlen2
            rw [h, getD_set_self _ _ _ _ hslen]
            refine (mem_setDel _ _ _).mpr ⟨hmem, ?_⟩
            intro hc
            rcases hpos with hjk | hkey2
            · exact hjk hj
            · subst hc
              exact hkey2 (huniq k k key₂ key id hold hex).2
        · rw [getD_set_ne _ _ _ _ _ hj]
          rcases h2Icases with h | ⟨ex, _, h⟩
          · rw [h]
            exact hmem
          · rw [h, getD_set_ne _ _ _ _ _ hj]
            exact hmem


/-! ## Supporting lemmas: which ids an `add` call can introduce -/

theorem idOccurs_of_programs (s : DBState) (x : String)
    (h : alHas s.programs x = true) : idOccursB s x = true := by
  rw [idOccursB, h]
  rfl

theorem mem_getD_lt {α : Type} (L : List (List α)) (j : ℕ) (x : α)
    (h : x ∈ L.getD j []) : j < L.length := by
  by_contra hge
  rw [getD_out_of_range _ _ _ (by omega)] at h
  cases h

theorem idOccurs_of_island (s : DBState) (j : ℕ) (x : String)
    (h : x ∈ s.islands.getD j []) : idOccursB s x = true := by
  rw [idOccursB]
  simp only [Bool.or_eq_true]
  refine Or.inl (Or.inl (Or.inr ?_))
  exact List.any_eq_true.mpr ⟨_, getD_mem s.islands j [] (mem_getD_lt _ _ _ h),
    List.any_eq_true.mpr ⟨x, h, by simp⟩⟩

theorem idOccurs_of_cellEntry (s : DBState) (fm : List (List ℤ × String))
    (kv : List ℤ × String) (hfm : fm ∈ s.islandFeatureMaps)
    (hkv : kv ∈ fm) : idOccursB s kv.2 = true := by
  rw [idOccursB]
  simp only [Bool.or_eq_true]
  refine Or.inl (Or.inr ?_)
  exact List.any_eq_true.mpr ⟨fm, hfm, List.any_eq_true.mpr ⟨kv, hkv, by simp⟩⟩

theorem idOccurs_of_archive (s : DBState) (x : String)
    (h : x ∈ s.archive) : idOccursB s x = true := by
  rw [idOccursB]
  simp only [Bool.or_eq_true]
  exact Or.inr (List.any_eq_true.mpr ⟨x, h, by simp⟩)

theorem mem_getD_set {α : Type} (L : List (List α)) (k j : ℕ)
    (a : List α) (x : α) (h : x ∈ (L.set k a).getD j []) :
    x ∈ L.getD j [] ∨ (j = k ∧ x ∈ a) := by
  by_cases hj : j = k
  · by_cases hk : k < L.length
    · rw [hj, getD_set_self _ _ _ _ hk] at h
      exact Or.inr ⟨hj, h⟩
    · rw [List.set_eq_of_length_le (by omega)] at h
      exact Or.inl h
  · rw [getD_set_ne _ _ _ _ _ hj] at h
    exact Or.inl h

/-- Every id occurring anywhere in the state after an `add` call either
occurred before the call or is the incoming program's id. -/
theorem add_idOccurs (cfg : DatabaseConfig) (s : DBState) (p : Program)
    (it ti : Option ℕ) (x : String)
    (h : idOccursB (add cfg s p it ti) x = true) :
    idOccursB s x = true ∨ x = p.id := by
  set p1 := addP p it with hp1
  set s1 := addStatsState cfg s p it with hs1
  set k := addIsland cfg s p it ti with hkdef
  set key := (addCoords cfg s p it).1 with hkeydef
  set s2 := cellReplace cfg s1 p1 k key with hs2
  set s3 := islandInsert s2 p1 k with hs3
  set s4 := updateArchive cfg s3 p1 with hs4
  set s5 := enforcePopulationLimit cfg s4 p.id with hs5
  have hp1id : p1.id = p.id := addP_id p it
  have hadd : add cfg s p it ti =
      updateIslandBest cfg (updateBest cfg s5 p1) p1 k := rfl
  have hFP : (add cfg s p it ti).programs = s5.programs := by
    rw [hadd]; rfl
  have hFI : (add cfg s p it ti).islands = s5.islands := by
    rw [hadd]; rfl
  have hFC : (add cfg s p it ti).islandFeatureMaps =
      s5.islandFeatureMaps := by
    rw [hadd]; rfl
  have hFA : (add cfg s p it ti).archive = s5.archive := by
    rw [hadd]; rfl
  have h1P : s1.programs = alSet s.programs p.id p1 := by
    rw [hs1, addStatsState_programs, hp1id]
  have h2P : s2.programs = s1.programs := cellReplace_programs cfg s1 p1 k key
  have h3P : s3.programs = s2.programs.map
      (fun kv => (kv.1, islandTag k p1.metaId kv.2)) := rfl
  have h4P : s4.programs = s3.programs := updateArchive_programs cfg s3 p1
  have h3C : s3.islandFeatureMaps = s2.islandFeatureMaps := rfl
  have h4C : s4.islandFeatureMaps = s3.islandFeatureMaps :=
    updateArchive_cellmaps cfg s3 p1
  have h5C : s5.islandFeatureMaps = s4.islandFeatureMaps :=
    enforce_cellmaps cfg s4 p.id
  have h3I : s3.islands =
      s2.islands.set k (setAdd (s2.islands.getD k []) p1.id) := rfl
  have h4I : s4.islands = s3.islands := updateArchive_islands cfg s3 p1
  have h3A : s3.archive = s2.archive := rfl
  have hs2i : ∀ m : ℕ, x ∈ s2.islands.getD m [] → idOccursB s x = true := by
    intro m hm
    rcases cellReplace_islands_cases cfg s1 p1 k key with hcc | ⟨ex, _, hcc⟩
    · rw [hs2, hcc] at hm
      exact idOccurs_of_island s m x hm
    · rw [hs2, hcc] at hm
      rcases mem_getD_set _ _ _ _ _ hm with hm2 | ⟨_, hm2⟩
      · exact idOccurs_of_island s m x hm2
      · exact idOccurs_of_island s k x ((mem_setDel _ _ _).mp hm2).1
  rw [idOccursB] at h
  simp only [Bool.or_eq_true] at h
  rcases h with ((hp | hi) | hc) | ha
  · -- program map keys
    rw [hFP] at hp
    have hp4 := enforce_programs_sub cfg s4 p.id x hp
    rw [h4P, h3P, alHas_valueMap (islandTag k p1.metaId)] at hp4
    rw [h2P, h1P] at hp4
    rcases alHas_alSet _ _ _ _ hp4 with hx | hp0
    · exact Or.inr hx
    · exact Or.inl (idOccurs_of_programs s x hp0)
  · -- island resident sets
    rw [hFI] at hi
    obtain ⟨isl, hisl, hx⟩ := List.any_eq_true.mp hi
    have hxm : x ∈ isl := by
      obtain ⟨y, hy, hyx⟩ := List.any_eq_true.mp hx
      have hyx2 : y = x := by simpa using hyx
      exact hyx2 ▸ hy
    obtain ⟨j, hjlen, hget⟩ := List.mem_iff_getElem.mp hisl
    have hxg : x ∈ s5.islands.getD j [] := by
      rw [List.getD_eq_getElem _ _ hjlen, hget]
      exact hxm
    obtain ⟨j', hj'⟩ := enforce_islands_sub cfg s4 p.id x j hxg
    rw [h4I, h3I] at hj'
    rcases mem_getD_set _ _ _ _ _ hj' with hj2 | ⟨_, hj2⟩
    · exact Or.inl (hs2i j' hj2)
    · rcases (mem_setAdd _ _ _).mp hj2 with hj3 | hx
      · exact Or.inl (hs2i k hj3)
      · exact Or.inr (hx.trans hp1id)
  · -- cell-map occupants
    rw [hFC, h5C, h4C, h3C] at hc
    obtain ⟨fm, hfm, hkv⟩ := List.any_eq_true.mp hc
    obtain ⟨kv, hkvm, hkvx⟩ := List.any_eq_true.mp hkv
    have hkx : kv.2 = x := by simpa using hkvx
    rcases cellReplace_cases cfg s1 p1 k key with hrep | ⟨_, hmap, _⟩
    · rw [hs2, hrep] at hfm
      exact Or.inl (hkx ▸ idOccurs_of_cellEntry s fm kv hfm hkvm)
    · rw [hs2, hmap] at hfm
      rcases List.mem_or_eq_of_mem_set hfm with hfm2 | hfme
      · exact Or.inl (hkx ▸ idOccurs_of_cellEntry s fm kv hfm2 hkvm)
      · rw [hfme] at hkvm
        rcases mem_alSet _ _ _ _ hkvm with hkve | hkv2
        · have hx2 : p1.id = x := by rw [hkve] at hkx; exact hkx
          exact Or.inr (by rw [← hx2]; exact hp1id)
        · have hklt := mem_getD_lt _ _ _ hkv2
          exact Or.inl (hkx ▸ idOccurs_of_cellEntry s _ kv
            (getD_mem _ _ _ hklt) hkv2)
  · -- archive
    rw [hFA] at ha
    have ham : x ∈ s5.archive := by
      obtain ⟨y, hy, hyx⟩ := List.any_eq_true.mp ha
      have hyx2 : y = x := by simpa using hyx
      exact hyx2 ▸ hy
    have ha4 := enforce_archive_sub cfg s4 p.id x ham
    rcases updateArchive_archive_sub cfg s3 p1 x ha4 with hx | ha3
    · exact Or.inr (hx.trans hp1id)
    · rcases cellReplace_archive_sub cfg s1 p1 k key x ha3 with hx | ha1
      · exact Or.inr (hx.trans hp1id)
      · exact Or.inl (idOccurs_of_archive s x ha1)

/-! ## Supporting lemmas: migration preserves the cell invariant -/

/-- Folding `add` over a list of migrant copies with pairwise-distinct
fresh ids preserves the cell invariant, and introduces no ids beyond the
supplied ones. -/
theorem foldAdd_pres (cfg : DatabaseConfig) (ti : Option ℕ) :
    ∀ (M : List (Program × String)) (s : DBState),
      CellInvariant s → (M.map Prod.snd).Nodup →
      (∀ id ∈ M.map Prod.snd, idOccursB s id = false) →
      CellInvariant (M.foldl
          (fun st mi => add cfg st { mi.1 with id := mi.2 } none ti) s) ∧
        ∀ y, idOccursB s y = false → y ∉ M.map Prod.snd →
          idOccursB (M.foldl
            (fun st mi => add cfg st { mi.1 with id := mi.2 } none ti) s)
            y = false
  | [], s, hinv, _, _ => ⟨hinv, fun _ hy _ => hy⟩
  | (q, i₀) :: M, s, hinv, hnd, hfr => by
    rw [List.map_cons, List.nodup_cons] at hnd
    have hfr₀ : idOccursB s i₀ = false := hfr i₀ (by simp)
    have hinv' : CellInvariant (add cfg s { q with id := i₀ } none ti) :=
      add_preserves_cellInvariant cfg s _ none ti hfr₀ hinv
    have hkeep : ∀ y, idOccursB s y = false → y ≠ i₀ →
        idOccursB (add cfg s { q with id := i₀ } none ti) y = false := by
      intro y hy hne
      cases hb : idOccursB (add cfg s { q with id := i₀ } none ti) y with
      | false => rfl
      | true =>
        exfalso
        rcases add_idOccurs cfg s _ none ti y hb with hcontra | hcontra
        · rw [hcontra] at hy
          simp at hy
        · exact hne hcontra
    have hfr2 : ∀ id ∈ M.map Prod.snd,
        idOccursB (add cfg s { q with id := i₀ } none ti) id = false := by
      intro id hid
      exact hkeep id (hfr id (List.mem_cons_of_mem _ hid))
        (fun hc => hnd.1 (hc ▸ hid))
    obtain ⟨hinv2, hkeep2⟩ := foldAdd_pres cfg ti M
      (add cfg s { q with id := i₀ } none ti) hinv' hnd.2 hfr2
    rw [List.foldl_cons]
    refine ⟨hinv2, ?_⟩
    intro y hy hym
    rw [List.map_cons, List.mem_cons] at hym
    push_neg at hym
    exact hkeep2 y (hkeep y hy hym.1) hym.2

theorem zip_snd_sublist {α β : Type} : ∀ (l₁ : List α) (l₂ : List β),
    List.Sublist ((l₁.zip l₂).map Prod.snd) l₂
  | [], _ => by simp
  | _ :: _, [] => by simp
  | _ :: t₁, b :: t₂ => by
    simpa using List.Sublist.cons₂ b (zip_snd_sublist t₁ t₂)

/-- One island's migration step preserves the cell invariant when the
fresh-id supply is duplicate free and unused. -/
theorem migrateFromIsland_pres (cfg : DatabaseConfig) (s : DBState)
    (i : ℕ) (ids : List String) (hinv : CellInvariant s)
    (hfr : ∀ id ∈ ids, idOccursB s id = false) (hnd : ids.Nodup) :
    CellInvariant (migrateFromIsland cfg s i ids) ∧
      ∀ y, idOccursB s y = false → y ∉ ids →
        idOccursB (migrateFromIsland cfg s i ids) y = false := by
  have hsub := zip_snd_sublist (islandMigrants cfg s i) ids
  obtain ⟨h1, h2⟩ := foldAdd_pres cfg (some ((i + 1) % s.islands.length))
    ((islandMigrants cfg s i).zip ids) s hinv (hnd.sublist hsub)
    (fun id hid => hfr id (hsub.subset hid))
  exact ⟨h1, fun y hy hym => h2 y hy (fun hc => hym (hsub.subset hc))⟩

/-- The island loop of `migratePrograms` preserves the cell invariant. -/
theorem loopAdd_pres (cfg : DatabaseConfig)
    (idSupply : List (List String)) :
    ∀ (I : List ℕ) (s : DBState), CellInvariant s →
      ((I.map (fun i => idSupply.getD i [])).flatten).Nodup →
      (∀ id ∈ (I.map (fun i => idSupply.getD i [])).flatten,
        idOccursB s id = false) →
      CellInvariant (I.foldl
        (fun st i => migrateFromIsland cfg st i (idSupply.getD i [])) s) ∧
      ∀ y, idOccursB s y = false →
        y ∉ (I.map (fun i => idSupply.getD i [])).flatten →
        idOccursB (I.foldl
          (fun st i => migrateFromIsland cfg st i (idSupply.getD i []))
          s) y = false
  | [], s, hinv, _, _ => ⟨hinv, fun _ hy _ => hy⟩
  | i₀ :: I, s, hinv, hnd, hfr => by
    rw [List.map_cons, List.flatten_cons] at hnd hfr
    rw [List.nodup_append] at hnd
    obtain ⟨hnd₀, hndI, hdisj⟩ := hnd
    obtain ⟨hinv', hkeep⟩ := migrateFromIsland_pres cfg s i₀
      (idSupply.getD i₀ []) hinv
      (fun id hid => hfr id (List.mem_append_left _ hid)) hnd₀
    have hfr2 : ∀ id ∈ (I.map (fun i => idSupply.getD i [])).flatten,
        idOccursB (migrateFromIsland cfg s i₀ (idSupply.getD i₀ [])) id =
          false := by
      intro id hid
      exact hkeep id (hfr id (List.mem_append_right _ hid))
        (fun hc => hdisj hc hid)
    obtain ⟨h1, h2⟩ := loopAdd_pres cfg idSupply I
      (migrateFromIsland cfg s i₀ (idSupply.getD i₀ [])) hinv' hndI hfr2
    rw [List.foldl_cons]
    refine ⟨h1, ?_⟩
    intro y hy hym
    rw [List.map_cons, List.flatten_cons] at hym
    have hy1 : y ∉ idSupply.getD i₀ [] :=
      fun hc => hym (List.mem_append_left _ hc)
    have hy2 : y ∉ (I.map (fun i => idSupply.getD i [])).flatten :=
      fun hc => hym (List.mem_append_right _ hc)
    exact h2 y (hkeep y hy hy1) hy2

theorem rangeMap_flatten (L : List (List String)) :
    ∀ n : ℕ, ((List.range n).map (fun i => L.getD i [])).flatten =
      (L.take n).flatten
  | 0 => by simp
  | n + 1 => by
    rw [List.range_succ, List.map_append, List.flatten_append,
      rangeMap_flatten L n, List.take_succ, List.flatten_append]
    rcases Nat.lt_or_ge n L.length with hn | hn
    · simp [List.getElem?_eq_getElem hn, List.getD_eq_getElem L [] hn]
    · simp [List.getElem?_eq_none hn, getD_out_of_range L n [] hn]

theorem flatten_take_sublist {α : Type} (L : List (List α)) (n : ℕ) :
    List.Sublist (L.take n).flatten L.flatten := by
  conv_rhs => rw [← List.take_append_drop n L]
  rw [List.flatten_append]
  exact List.sublist_append_left _ _

/-- A whole `migratePrograms` call preserves the cell invariant when the
minted uuids are pairwise distinct and unused. -/
theorem migrate_preserves_cellInvariant (cfg : DatabaseConfig)
    (s : DBState) (idSupply : List (List String))
    (hinv : CellInvariant s)
    (hfresh : ∀ id ∈ idSupply.flatten, idOccursB s id = false)
    (hnodup : idSupply.flatten.Nodup) :
    CellInvariant (migratePrograms cfg s idSupply) := by
  have hsub : List.Sublist
      (((List.range s.islands.length).map
        (fun i => idSupply.getD i [])).flatten) idSupply.flatten := by
    rw [rangeMap_flatten idSupply s.islands.length]
    exact flatten_take_sublist idSupply s.islands.length
  obtain ⟨h1, _⟩ := loopAdd_pres cfg idSupply
    (List.range s.islands.length) s hinv (hnodup.sublist hsub)
    (fun id hid => hfresh id (hsub.subset hid))
  exact h1

theorem replicate_getD_nil {α : Type} (n j : ℕ) :
    (List.replicate n ([] : List α)).getD j [] = [] := by
  rcases Nat.lt_or_ge j n with hj | hj
  · rw [List.getD_eq_getElem _ _ (by simpa using hj)]
    simp
  · rw [getD_out_of_range _ _ _ (by simpa using hj)]

/-- A freshly constructed database satisfies the cell invariant. -/
theorem dbInit_cellInvariant (cfg : DatabaseConfig) :
    CellInvariant (dbInit cfg) := by
  refine ⟨by simp [dbInit], ?_, ?_, ?_⟩
  · intro fm hfm
    have hfm2 : fm = [] := List.eq_of_mem_replicate hfm
    simp [hfm2]
  · intro k k' key key' id h₁ h₂
    rw [show (dbInit cfg).islandFeatureMaps =
      List.replicate cfg.numIslands [] from rfl, replicate_getD_nil] at h₁
    simp [alGet] at h₁
  · intro k key id h₁ h₂
    rw [show (dbInit cfg).islandFeatureMaps =
      List.replicate cfg.numIslands [] from rfl, replicate_getD_nil] at h₁
    simp [alGet] at h₁


/-! ## Theorems: the MAP-Elites cell invariant (claims C1, C2) and the
sampling strategy (claim C4) -/

/-- **C1** (amended).  On every reachable database state, each island's
cell map has duplicate-free feature keys (each key maps to exactly one
program id), each program id occupies at most one cell across all islands,
and every cell occupant that is still in the program map is a member of
its island's resident set.  The literal claim — that *every* occupant is
resident — is false: `enforcePopulationLimit` removes evicted programs
from the program map, the resident sets and the archive, but not from the
cell maps, leaving dangling occupants
(`mapElites_cell_resident_counterexample`). -/
theorem mapElites_cell_resident_spec (cfg : DatabaseConfig) (s : DBState)
    (h : Reachable cfg s) : CellInvariant s := by
  induction h with
  | init => exact dbInit_cellInvariant cfg
  | add s p iteration targetIsland hs hfresh ih =>
    exact add_preserves_cellInvariant cfg s p iteration targetIsland
      hfresh ih
  | migrate s idSupply hs hfresh hnodup ih =>
    exact migrate_preserves_cellInvariant cfg s idSupply ih hfresh hnodup
  | incrementGen s islandIdx hs ih => exact ih

/-- Witness for `mapElites_cell_resident_spec` at a concrete reachable
state: the database after one `add` call satisfies the invariant. -/
theorem mapElites_cell_resident_spec_witness :
    CellInvariant (add cfgC1 (dbInit cfgC1) pA none none) :=
  mapElites_cell_resident_spec cfgC1 (add cfgC1 (dbInit cfgC1) pA none none)
    (Reachable.add (dbInit cfgC1) pA none none Reachable.init
      (by simp [idOccursB, dbInit, cfgC1, pA, alHas, alGet,
        List.replicate]))

/-- Counterexample to the literal C1: after adding `pA` (score 1, cell
`[0]`) and then `pB` (score 2, cell `[9]`) to a database with
`populationSize = 1`, the population limit evicts `pA` from the resident
set but leaves its id in cell `[0]`: the occupant of cell `[0]` of island
0 is not a member of island 0's resident set. -/
theorem mapElites_cell_resident_counterexample :
    Reachable cfgC1
      (add cfgC1 (add cfgC1 (dbInit cfgC1) pA none none) pB none none) ∧
    alGet ((add cfgC1 (add cfgC1 (dbInit cfgC1) pA none none) pB none
      none).islandFeatureMaps.getD 0 []) [0] = some "a" ∧
    "a" ∉ (add cfgC1 (add cfgC1 (dbInit cfgC1) pA none none) pB none
      none).islands.getD 0 [] := by
  have hab : ("a" : String) ≠ "b" := by decide
  have hba : ("b" : String) ≠ "a" := by decide
  have e1 : add cfgC1 (dbInit cfgC1) pA none none = s1lit := by
    norm_num [add, addP, addRecord, addCoords, addStatsState, calcCoords,
      featureValue, jsOrQ, binsFor, valueTobin, chooseIsland, addIsland,
      cellReplace, shouldReplaceCell, islandInsert, islandTag, updateArchive,
      archiveWorst, enforcePopulationLimit, removeProgram, updateBest,
      updateIslandBest, isBetter, fitness, getFitnessScore, alGet, alSet,
      alHas, setAdd, setDel, alDel, sortByAsc, insertAsc, dbInit, cfgC1,
      pA, pA0, s1lit, safeNumericAverage, List.replicate]
  have e2 : add cfgC1 s1lit pB none none = s2lit := by
    norm_num [hab, hba, add, addP, addRecord, addCoords, addStatsState,
      calcCoords, featureValue, jsOrQ, binsFor, valueTobin, chooseIsland,
      addIsland, cellReplace, shouldReplaceCell, islandInsert, islandTag,
      updateArchive, archiveWorst, enforcePopulationLimit, removeProgram,
      updateBest, updateIslandBest, isBetter, fitness, getFitnessScore,
      alGet, alSet, alHas, setAdd, setDel, alDel, sortByAsc, insertAsc,
      cfgC1, pA, pA0, pB, pB0, s1lit, s2lit, safeNumericAverage]
  refine ⟨?_, ?_, ?_⟩
  · refine Reachable.add _ pB none none
      (Reachable.add _ pA none none Reachable.init ?_) ?_
    · simp [idOccursB, dbInit, cfgC1, pA, alHas, alGet, List.replicate]
    · rw [e1]
      simp [idOccursB, s1lit, pB, alHas, alGet]
  · rw [e1, e2]
    simp [s2lit, alGet]
  · rw [e1, e2]
    simp [s2lit]

/-- **C2** (amended).  When `add` replaces a cell occupant that is still
present in the program map, the incoming program's fitness is strictly
greater than the occupant's.  The strictness claim holds only for live
occupants: a dangling occupant id (left behind by the population limit)
is replaced unconditionally (`cell_replacement_better_counterexample`). -/
theorem cell_replacement_better_spec (cfg : DatabaseConfig) (s : DBState)
    (p : Program) (k : ℕ) (key : List ℤ) (ex : String)
    (existing : Program)
    (hex : alGet (s.islandFeatureMaps.getD k []) key = some ex)
    (hlive : alGet s.programs ex = some existing)
    (hrep : shouldReplaceCell cfg s p k key = true) :
    fitness cfg p > fitness cfg existing := by
  unfold shouldReplaceCell at hrep
  simp only [hex, hlive] at hrep
  rw [isBetter] at hrep
  by_contra hle
  rw [if_neg hle] at hrep
  simp at hrep

/-- Witness for `cell_replacement_better_spec`: replacing the live
occupant `pA` (fitness 1) of cell `[0]` by `pB` requires `pB`'s fitness 2
to be strictly greater. -/
theorem cell_replacement_better_spec_witness :
    shouldReplaceCell cfgC1 s1lit pB 0 [0] = true ∧
      fitness cfgC1 pB > fitness cfgC1 pA0 := by
  have hex : alGet (s1lit.islandFeatureMaps.getD 0 []) [0] = some "a" := by
    simp [s1lit, alGet]
  have hlive : alGet s1lit.programs "a" = some pA0 := by
    simp [s1lit, alGet]
  have hrep : shouldReplaceCell cfgC1 s1lit pB 0 [0] = true := by
    norm_num [shouldReplaceCell, s1lit, alGet, isBetter, fitness,
      getFitnessScore, pA0, pA, pB, cfgC1]
  exact ⟨hrep, cell_replacement_better_spec cfgC1 s1lit pB 0 [0] "a" pA0
    hex hlive hrep⟩

/-- Counterexample to the literal C2: in the reachable state `s2lit`, cell
`[0]` of island 0 holds the dangling occupant `a` (fitness 1 as a
program).  Adding `pC` (fitness 0, same cell) replaces it even though the
incoming fitness is strictly lower. -/
theorem cell_replacement_better_counterexample :
    Reachable cfgC1 (add cfgC1 s2lit pC none none) ∧
    alGet (s2lit.islandFeatureMaps.getD 0 []) [0] = some "a" ∧
    fitness cfgC1 pC < fitness cfgC1 pA ∧
    alGet ((add cfgC1 s2lit pC none none).islandFeatureMaps.getD 0 [])
      [0] = some "c" := by
  have hab : ("a" : String) ≠ "b" := by decide
  have hba : ("b" : String) ≠ "a" := by decide
  have hac : ("a" : String) ≠ "c" := by decide
  have hca : ("c" : String) ≠ "a" := by decide
  have hbc : ("b" : String) ≠ "c" := by decide
  have hcb : ("c" : String) ≠ "b" := by decide
  have e1 : add cfgC1 (dbInit cfgC1) pA none none = s1lit := by
    norm_num [add, addP, addRecord, addCoords, addStatsState, calcCoords,
      featureValue, jsOrQ, binsFor, valueTobin, chooseIsland, addIsland,
      cellReplace, shouldReplaceCell, islandInsert, islandTag, updateArchive,
      archiveWorst, enforcePopulationLimit, removeProgram, updateBest,
      updateIslandBest, isBetter, fitness, getFitnessScore, alGet, alSet,
      alHas, setAdd, setDel, alDel, sortByAsc, insertAsc, dbInit, cfgC1,
      pA, pA0, s1lit, safeNumericAverage, List.replicate]
  have e2 : add cfgC1 s1lit pB none none = s2lit := by
    norm_num [hab, hba, add, addP, addRecord, addCoords, addStatsState,
      calcCoords, featureValue, jsOrQ, binsFor, valueTobin, chooseIsland,
      addIsland, cellReplace, shouldReplaceCell, islandInsert, islandTag,
      updateArchive, archiveWorst, enforcePopulationLimit, removeProgram,
      updateBest, updateIslandBest, isBetter, fitness, getFitnessScore,
      alGet, alSet, alHas, setAdd, setDel, alDel, sortByAsc, insertAsc,
      cfgC1, pA, pA0, pB, pB0, s1lit, s2lit, safeNumericAverage]
  have e3 : add cfgC1 s2lit pC none none = s3lit := by
    norm_num [hab, hba, hac, hca, hbc, hcb, add, addP, addRecord,
      addCoords, addStatsState, calcCoords, featureValue, jsOrQ, binsFor,
      valueTobin, chooseIsland, addIsland, cellReplace, shouldReplaceCell,
      islandInsert, islandTag, updateArchive, archiveWorst, enforcePopulationLimit,
      removeProgram, updateBest, updateIslandBest, isBetter, fitness,
      getFitnessScore, alGet, alSet, alHas, setAdd, setDel, alDel,
      sortByAsc, insertAsc, cfgC1, pB, pB0, pC, s2lit, s3lit,
      safeNumericAverage]
  refine ⟨?_, ?_, ?_, ?_⟩
  · refine Reachable.add s2lit pC none none ?_ ?_
    · rw [← e2, ← e1]
      refine Reachable.add _ pB none none
        (Reachable.add _ pA none none Reachable.init ?_) ?_
      · simp [idOccursB, dbInit, cfgC1, pA, alHas, alGet, List.replicate]
      · rw [e1]
        simp [idOccursB, s1lit, pB, alHas, alGet]
    · simp [idOccursB, s2lit, pC, alHas, alGet]
  · simp [s2lit, alGet]
  · norm_num [fitness, getFitnessScore, pA, pC, cfgC1, alGet]
  · rw [e3]
    simp [s3lit, alGet]

/-- **C4** (code bug).  The source `sampleFromIsland(islandId,
numInspirations)` has no strategy parameter (the controller's three-ary
call is a type error whose third argument is ignored at runtime): the
parent-selection branch is decided by a `Math.random()` draw against the
configured ratios, not by a strategy argument.  In a state whose island 0
has an archive member (`islandArchive = ["b"]`), a draw below
`explorationRatio` returns a uniform resident (here `pA0`), and a draw in
the exploitation band returns the archive member — the branch varies with
the draw while every other input is held fixed. -/
theorem sampleFromIsland_strategy_bug :
    islandArchive c4state 0 = ["b"] ∧
    sampleParent cfgC1 c4state 0 (1/10) 0 = some pA0 ∧
    sampleParent cfgC1 c4state 0 (1/2) 0 = some pB0 := by
  have hab : ("a" : String) ≠ "b" := by decide
  have hba : ("b" : String) ≠ "a" := by decide
  refine ⟨?_, ?_, ?_⟩
  · simp [islandArchive, c4state, alGet, pA0, pB0, pA, pB, hab, hba]
  · norm_num [hab, hba, sampleParent, c4state, cfgC1,
      sampleFromIslandRandom, randIndex, alGet, List.getD, List.get?,
      pA0, pA]
    intro hc
    simp at hc
  · norm_num [hab, hba, sampleParent, c4state, cfgC1,
      sampleFromArchiveForIsland, sampleFromIslandRandom, islandArchive,
      randIndex, alGet, List.getD, List.get?, pA0, pB0, pA, pB]
    intro hc
    simp at hc

end OpenEvolve
